import Mathlib

/-!
Verification of the bsonrs binary document codec.

The development shallowly embeds the library's data model and algorithms:

* machine integers are `Nat`/`Int` with explicit two's-complement wrapping;
* Rust `String` values are lists of UTF-8 bytes (`List Nat`);
* byte streams are `List Nat`; readers return `Except` and the unread suffix;
* the recursive decoder is defuelled by an explicit `Nat` fuel index, with
  fuel exhaustion mapped to the same I/O-failure error a reader at end of
  stream produces; the public entry point supplies one unit of fuel per
  input byte plus one, which is shown to be sufficient.

Components whose sources are external collaborators (the `indexmap` ordered
map, the `chrono` calendar, the hex codec and object-id helpers declared in
modules not present here) are modelled from their documented contracts;
each such definition carries a doc comment saying so.
-/

namespace Bsonrs

/-- The UTF-8 bytes of a Rust `String`; a Rust `u8` byte is a `Nat`, with
well-formedness predicates bounding it by 256 where it matters. -/
abbrev Str := List Nat

/-- A byte stream (the serialized wire form or a reader's remaining input). -/
abbrev Bytes := List Nat

/-- Little-endian encoding of the low `w` bytes of `n` (`byteorder` write). -/
def natToLE : Nat → Nat → Bytes
  | 0, _ => []
  | w + 1, n => (n % 256) :: natToLE w (n / 256)

/-- Little-endian decoding of a byte list into an unsigned value (`byteorder` read). -/
def leToNat : Bytes → Nat
  | [] => 0
  | b :: t => b + 256 * leToNat t

/-- Reinterpret an unsigned 32-bit value as a signed `i32`. -/
def i32OfU32 (u : Nat) : Int :=
  if u < 2 ^ 31 then (u : Int) else (u : Int) - 2 ^ 32

/-- Reinterpret an unsigned 64-bit value as a signed `i64`. -/
def i64OfU64 (u : Nat) : Int :=
  if u < 2 ^ 63 then (u : Int) else (u : Int) - 2 ^ 64

/-- The 4 little-endian bytes of an `i32` value (two's complement). -/
def i32le (v : Int) : Bytes := natToLE 4 (v % (2 ^ 32 : Int)).toNat

/-- The 8 little-endian bytes of an `i64` value (two's complement). -/
def i64le (v : Int) : Bytes := natToLE 8 (v % (2 ^ 64 : Int)).toNat

/-- Rust `as i32` on an integer of any width: keep the low 32 bits, signed. -/
def wrapI32 (v : Int) : Int := i32OfU32 (v % (2 ^ 32 : Int)).toNat

/-- Rust `as i64` on an integer of any width: keep the low 64 bits, signed. -/
def wrapI64 (v : Int) : Int := i64OfU64 (v % (2 ^ 64 : Int)).toNat

/-- Rust `as usize` applied to an `i32` (64-bit target): sign extension
reinterpreted as an unsigned 64-bit value. -/
def usizeOfI32 (v : Int) : Nat :=
  if 0 ≤ v then v.toNat else (2 ^ 64 + v).toNat

/-- Rust `as u64` applied to an `i32` (used by `Read::take(len as u64)`). -/
def u64OfI32 (v : Int) : Nat :=
  if 0 ≤ v then v.toNat else (2 ^ 64 + v).toNat

/-- Rust `as u8` applied to an `i64`: low 8 bits. -/
def u8OfI64 (v : Int) : Nat := (v % (256 : Int)).toNat

/-- Rust `as u32` applied to an `i64`: low 32 bits. -/
def u32OfI64 (v : Int) : Nat := (v % (2 ^ 32 : Int)).toNat

mutual

/-- Validity of a byte list as UTF-8, per the encoding's byte-range table
(the check behind `String::from_utf8` / `String::from_utf8_lossy`). -/
def utf8Valid : Bytes → Bool
  | [] => true
  | b :: r =>
    if b < 0x80 then utf8Valid r
    else if 0xC2 ≤ b && b ≤ 0xDF then utf8Tail1 0x80 0xBF r
    else if b = 0xE0 then utf8Tail2 0xA0 0xBF r
    else if (0xE1 ≤ b && b ≤ 0xEC) || b = 0xEE || b = 0xEF then utf8Tail2 0x80 0xBF r
    else if b = 0xED then utf8Tail2 0x80 0x9F r
    else if b = 0xF0 then utf8Tail3 0x90 0xBF r
    else if 0xF1 ≤ b && b ≤ 0xF3 then utf8Tail3 0x80 0xBF r
    else if b = 0xF4 then utf8Tail3 0x80 0x8F r
    else false

/-- One continuation byte in `[lo, hi]`, then a valid rest. -/
def utf8Tail1 (lo hi : Nat) : Bytes → Bool
  | c :: r => if lo ≤ c && c ≤ hi then utf8Valid r else false
  | [] => false

/-- A continuation byte in `[lo, hi]`, then one ordinary continuation. -/
def utf8Tail2 (lo hi : Nat) : Bytes → Bool
  | c :: r => if lo ≤ c && c ≤ hi then utf8Tail1 0x80 0xBF r else false
  | [] => false

/-- A continuation byte in `[lo, hi]`, then two ordinary continuations. -/
def utf8Tail3 (lo hi : Nat) : Bytes → Bool
  | c :: r => if lo ≤ c && c ≤ hi then utf8Tail2 0x80 0xBF r else false
  | [] => false

end

/-- The UTF-8 bytes of U+FFFD, produced by lossy decoding for each maximal
invalid subsequence. -/
def replacementBytes : Bytes := [0xEF, 0xBF, 0xBD]

/-- Replacement of invalid UTF-8 per the maximal-subpart policy of
`String::from_utf8_lossy` (only reached on invalid input). -/
def utf8LossyRepair : Bytes → Bytes
  | [] => []
  | b :: r =>
    if b < 0x80 then b :: utf8LossyRepair r
    else if 0xC2 ≤ b && b ≤ 0xDF then
      match r with
      | c1 :: r1 =>
        if 0x80 ≤ c1 && c1 ≤ 0xBF then b :: c1 :: utf8LossyRepair r1
        else replacementBytes ++ utf8LossyRepair (c1 :: r1)
      | [] => replacementBytes
    else if 0xE0 ≤ b && b ≤ 0xEF then
      match r with
      | c1 :: r1 =>
        if (if b = 0xE0 then 0xA0 ≤ c1 && c1 ≤ 0xBF
            else if b = 0xED then 0x80 ≤ c1 && c1 ≤ 0x9F
            else 0x80 ≤ c1 && c1 ≤ 0xBF) then
          match r1 with
          | c2 :: r2 =>
            if 0x80 ≤ c2 && c2 ≤ 0xBF then b :: c1 :: c2 :: utf8LossyRepair r2
            else replacementBytes ++ utf8LossyRepair (c2 :: r2)
          | [] => replacementBytes
        else replacementBytes ++ utf8LossyRepair (c1 :: r1)
      | [] => replacementBytes
    else if 0xF0 ≤ b && b ≤ 0xF4 then
      match r with
      | c1 :: r1 =>
        if (if b = 0xF0 then 0x90 ≤ c1 && c1 ≤ 0xBF
            else if b = 0xF4 then 0x80 ≤ c1 && c1 ≤ 0x8F
            else 0x80 ≤ c1 && c1 ≤ 0xBF) then
          match r1 with
          | c2 :: r2 =>
            if 0x80 ≤ c2 && c2 ≤ 0xBF then
              match r2 with
              | c3 :: r3 =>
                if 0x80 ≤ c3 && c3 ≤ 0xBF then b :: c1 :: c2 :: c3 :: utf8LossyRepair r3
                else replacementBytes ++ utf8LossyRepair (c3 :: r3)
              | [] => replacementBytes
            else replacementBytes ++ utf8LossyRepair (c2 :: r2)
          | [] => replacementBytes
        else replacementBytes ++ utf8LossyRepair (c1 :: r1)
      | [] => replacementBytes
    else replacementBytes ++ utf8LossyRepair r

/-- `String::from_utf8_lossy(..).to_string()`: identity on valid UTF-8
(`Cow::Borrowed`), byte repair otherwise (`Cow::Owned`). -/
def fromUtf8Lossy (bs : Bytes) : Bytes :=
  if utf8Valid bs then bs else utf8LossyRepair bs

/-- Digits accumulation of `usize::from_str`: one decimal digit per byte,
with the `checked_mul`/`checked_add` overflow test against `usize::MAX`. -/
def parseUsizeDigits : Str → Nat → Option Nat
  | [], acc => some acc
  | c :: t, acc =>
    if 48 ≤ c && c ≤ 57 then
      if acc * 10 + (c - 48) < 2 ^ 64 then parseUsizeDigits t (acc * 10 + (c - 48))
      else none
    else none

/-- `str::parse::<usize>()`: optional leading plus sign, then at least one
decimal digit, overflow-checked. -/
def parseUsize (s : Str) : Option Nat :=
  match s with
  | [] => none
  | c :: t =>
    if c = 43 then (if t = [] then none else parseUsizeDigits t 0)
    else parseUsizeDigits (c :: t) 0

/-- Decimal digits of a positive number, most significant first
(the digit production of `usize::to_string`); `fuel ≥ n` suffices. -/
def natToDecAux : Nat → Nat → Str
  | 0, _ => []
  | fuel + 1, n => if n = 0 then [] else natToDecAux fuel (n / 10) ++ [48 + n % 10]

/-- `usize::to_string` as UTF-8 bytes (used for synthesized array keys). -/
def natToDec (n : Nat) : Str := if n = 0 then [48] else natToDecAux n n

/-- Modelled from the spec: the hex codec collaborator (`util/hex.rs`, not in
the sources) maps a nibble to its lowercase hex character. -/
def hexDigit (n : Nat) : Nat := if n < 10 then 48 + n else 87 + n

/-- Modelled from the spec: `ToHex::to_hex`, two lowercase hex characters per
byte, in order. -/
def toHex : Bytes → Str
  | [] => []
  | b :: t => hexDigit (b / 16) :: hexDigit (b % 16) :: toHex t

/-- Modelled from the spec: value of one hex character, accepting both cases. -/
def hexVal (c : Nat) : Option Nat :=
  if 48 ≤ c && c ≤ 57 then some (c - 48)
  else if 97 ≤ c && c ≤ 102 then some (c - 87)
  else if 65 ≤ c && c ≤ 70 then some (c - 55)
  else none

/-- Modelled from the spec: `FromHex::from_hex`, decoding an even-length hex
string back into bytes. -/
def fromHex : Str → Option Bytes
  | [] => some []
  | [_] => none
  | c1 :: c2 :: t =>
    match hexVal c1, hexVal c2, fromHex t with
    | some h, some l, some rest => some ((h * 16 + l) :: rest)
    | _, _, _ => none

/-- A `chrono::DateTime<Utc>` instant: whole seconds since the epoch
(`timestamp()`, floor) and the nanosecond of the second (`nanosecond()`,
which chrono allows up to `2 * 10^9` to represent leap seconds). -/
structure DateTimeUtc where
  sec : Int
  nsec : Nat
deriving DecidableEq, Repr

/-- Modelled from the spec: `Utc.timestamp_opt(secs, nsecs)` of the external
calendar collaborator, which for the UTC offset yields a single instant
whenever the nanosecond field is below the leap-second limit and is never
ambiguous. `none` is chrono's `LocalResult::None`. -/
def timestampOpt (secs : Int) (nsecs : Nat) : Option DateTimeUtc :=
  if nsecs < 2000000000 then some ⟨secs, nsecs⟩ else none

/-- The `Value` enum of `value.rs`. `Double` carries the 64-bit IEEE-754 bit
pattern; strings are UTF-8 byte lists; a nested `Document` is its ordered
key/value sequence; `Binary` carries the subtype byte and payload;
`ObjectId` its 12 raw bytes. -/
inductive Value where
  | Double (bits : Nat)
  | String (s : Str)
  | Array (xs : List Value)
  | Document (d : List (Str × Value))
  | Boolean (b : Bool)
  | Null
  | RegExp (pat : Str) (opt : Str)
  | JavaScriptCode (code : Str)
  | JavaScriptCodeWithScope (code : Str) (scope : List (Str × Value))
  | Int32 (v : Int)
  | Int64 (v : Int)
  | TimeStamp (v : Int)
  | Binary (subtype : Nat) (data : Bytes)
  | ObjectId (id : Bytes)
  | UTCDatetime (dt : DateTimeUtc)
  | Symbol (s : Str)

/-- The `Document` of `doc.rs`: an `indexmap::IndexMap<String, Value>`,
i.e. the insertion-ordered sequence of key/value entries with unique keys. -/
abbrev Document := List (Str × Value)

/-- `IndexMap::get`: the value stored at a key. -/
def docGet : Document → Str → Option Value
  | [], _ => none
  | (k', v) :: t, k => if k' = k then some v else docGet t k

/-- `IndexMap::get_full`'s index component: the position of a key. -/
def docFindIndex : Document → Str → Option Nat
  | [], _ => none
  | (k', _) :: t, k =>
    if k' = k then some 0
    else match docFindIndex t k with
      | some i => some (i + 1)
      | none => none

/-- `IndexMap::insert`: replace in place if the key exists (keeping its
position), append otherwise. -/
def docInsert : Document → Str → Value → Document
  | [], k, v => [(k, v)]
  | (k', v') :: t, k, v =>
    if k' = k then (k', v) :: t else (k', v') :: docInsert t k v

/-- `Vec::swap_remove(i)`: move the last element into slot `i` and drop the
last slot (for `i` in bounds; the identity otherwise, which is unreachable
from `swap_remove` below). -/
def listSwapRemove (l : List α) (i : Nat) : List α :=
  match l.getLast? with
  | none => l
  | some last => (l.set i last).dropLast

/-- `Document::swap_remove` (`IndexMap::swap_remove`): remove a present key
by swapping the final entry into its slot; returns the removed value and
the resulting map. -/
def swap_remove (d : Document) (k : Str) : Option Value × Document :=
  match docFindIndex d k with
  | none => (none, d)
  | some i => (docGet d k, listSwapRemove d i)

/-- `Document::remove` delegates to `indexmap`'s `remove`, which that
collaborator documents as equivalent to `swap_remove`. -/
def remove (d : Document) (k : Str) : Option Value × Document :=
  swap_remove d k

/-- The `Error` enum of `doc.rs` used by the typed accessors. -/
inductive DocError where
  | NotPresent
  | UnexpectedType
deriving DecidableEq, Repr

/-- `Document::get_str`. -/
def get_str (d : Document) (k : Str) : Except DocError Str :=
  match docGet d k with
  | some (.String s) => .ok s
  | some _ => .error .UnexpectedType
  | none => .error .NotPresent

/-- `Document::get_document`. -/
def get_document (d : Document) (k : Str) : Except DocError Document :=
  match docGet d k with
  | some (.Document x) => .ok x
  | some _ => .error .UnexpectedType
  | none => .error .NotPresent

/-- `Document::get_i32`. -/
def get_i32 (d : Document) (k : Str) : Except DocError Int :=
  match docGet d k with
  | some (.Int32 v) => .ok v
  | some _ => .error .UnexpectedType
  | none => .error .NotPresent

/-- `Document::get_i64`. -/
def get_i64 (d : Document) (k : Str) : Except DocError Int :=
  match docGet d k with
  | some (.Int64 v) => .ok v
  | some _ => .error .UnexpectedType
  | none => .error .NotPresent

/-- Modelled from the spec: `Value::element_type(..) as u8`, the single-byte
wire tag of each variant (`spec.rs` is not among the sources; the values
are the BSON-style tags the spec's wire format prescribes). -/
def element_tag : Value → Nat
  | .Double _ => 0x01
  | .String _ => 0x02
  | .Document _ => 0x03
  | .Array _ => 0x04
  | .Binary _ _ => 0x05
  | .ObjectId _ => 0x07
  | .Boolean _ => 0x08
  | .UTCDatetime _ => 0x09
  | .Null => 0x0A
  | .RegExp _ _ => 0x0B
  | .JavaScriptCode _ => 0x0D
  | .Symbol _ => 0x0E
  | .JavaScriptCodeWithScope _ _ => 0x0F
  | .Int32 _ => 0x10
  | .TimeStamp _ => 0x11
  | .Int64 _ => 0x12

/-- `encode::write_string`: 4 little-endian bytes of `s.len() as i32 + 1`
(the written bytes equal the low 32 bits of `s.length + 1`), the content
bytes, then the trailing null. -/
def write_string (s : Str) : Bytes := natToLE 4 (s.length + 1) ++ s ++ [0]

/-- `encode::write_cstring`: the content bytes then a null terminator. -/
def write_cstring (s : Str) : Bytes := s ++ [0]

/-- The millisecond value `encode_bson` writes for a `UTCDatetime`:
`v.timestamp() * 1000 + i64::from(v.nanosecond()) / 1_000_000`. -/
def utcMillis (dt : DateTimeUtc) : Int := dt.sec * 1000 + (dt.nsec / 1000000 : Nat)

mutual

/-- The per-variant payload bytes written by `encode_bson`'s match. -/
def payload : Value → Bytes
  | .Double bits => natToLE 8 bits
  | .String s => write_string s
  | .Array xs =>
    let body := encArrElems 0 xs
    natToLE 4 (4 + body.length + 1) ++ body ++ [0]
  | .Document d =>
    let body := encElems d
    natToLE 4 (4 + body.length + 1) ++ body ++ [0]
  | .Boolean b => [if b then 0x01 else 0x00]
  | .Null => []
  | .RegExp pat opt => write_cstring pat ++ write_cstring opt
  | .JavaScriptCode code => write_string code
  | .JavaScriptCodeWithScope code scope =>
    let sbody := encElems scope
    let buf := write_string code ++ (natToLE 4 (4 + sbody.length + 1) ++ sbody ++ [0])
    natToLE 4 (buf.length + 4) ++ buf
  | .Int32 v => i32le v
  | .Int64 v => i64le v
  | .TimeStamp v => i64le v
  | .Binary subtype data => natToLE 4 data.length ++ subtype :: data
  | .ObjectId id => id
  | .UTCDatetime dt => i64le (utcMillis dt)
  | .Symbol s => write_string s

/-- The element sequence of a document body: `[tag][key cstring][payload]`
per entry, in iteration order. -/
def encElems : List (Str × Value) → Bytes
  | [] => []
  | (k, v) :: t => element_tag v :: (write_cstring k ++ payload v) ++ encElems t

/-- `encode_array`'s element sequence: keys are the decimal form of the
zero-based position. -/
def encArrElems : Nat → List Value → Bytes
  | _, [] => []
  | i, v :: t => element_tag v :: (write_cstring (natToDec i) ++ payload v) ++ encArrElems (i + 1) t

end

/-- `encode_document`: a 4-byte placeholder, the elements in order, the
terminator, with the total buffer length patched into the placeholder. -/
def encDocBytes (d : List (Str × Value)) : Bytes :=
  let body := encElems d
  natToLE 4 (4 + body.length + 1) ++ body ++ [0]

/-- `encode_bson`: tag byte, key cstring, payload. -/
def encode_bson (k : Str) (v : Value) : Bytes :=
  element_tag v :: (write_cstring k ++ payload v)

/-- `encode_document` on a `Document` (the public entry point). -/
def encode_document (d : Document) : Bytes := encDocBytes d

/-- A valid cstring: UTF-8 with no embedded null byte. -/
def wfKeyStr (s : Str) : Bool := utf8Valid s && s.all (· ≠ 0)

mutual

/-- Constructibility and encodability of a `Value`: numeric payloads are in
their machine ranges, strings are valid UTF-8 under the decoder's 16 MiB
bound, keys and regular-expression fields are null-free, binary payloads
fit an `i32` length, arrays fit `usize` indices, and datetimes are
non-negative millisecond-aligned instants inside the calendar range. -/
def wfValue : Value → Bool
  | .Double bits => bits < 2 ^ 64
  | .String s => utf8Valid s && s.length + 1 ≤ 16777216
  | .Array xs => wfList xs && xs.length ≤ 2 ^ 64
  | .Document d => wfDoc d
  | .Boolean _ => true
  | .Null => true
  | .RegExp pat opt => wfKeyStr pat && wfKeyStr opt
  | .JavaScriptCode code => utf8Valid code && code.length + 1 ≤ 16777216
  | .JavaScriptCodeWithScope code scope =>
    utf8Valid code && code.length + 1 ≤ 16777216 && wfDoc scope
  | .Int32 v => decide (-(2 ^ 31) ≤ v) && decide (v < 2 ^ 31)
  | .Int64 v => decide (-(2 ^ 63) ≤ v) && decide (v < 2 ^ 63)
  | .TimeStamp v => decide (-(2 ^ 63) ≤ v) && decide (v < 2 ^ 63)
  | .Binary subtype data => subtype < 256 && data.all (· < 256) && data.length < 2 ^ 31
  | .ObjectId id => id.length = 12 && id.all (· < 256)
  | .UTCDatetime dt =>
    decide (0 ≤ dt.sec) && decide (dt.sec ≤ 2 ^ 50) &&
      dt.nsec < 1000000000 && dt.nsec % 1000000 = 0
  | .Symbol s => utf8Valid s && s.length + 1 ≤ 16777216

/-- Well-formedness of every element of an array. -/
def wfList : List Value → Bool
  | [] => true
  | v :: t => wfValue v && wfList t

/-- Well-formedness of a document: each key is a valid null-free UTF-8
string absent from the rest of the document (`IndexMap` key uniqueness),
each value well-formed. -/
def wfDoc : List (Str × Value) → Bool
  | [] => true
  | (k, v) :: t =>
    wfKeyStr k && t.all (fun p => decide (p.1 ≠ k)) && wfValue v && wfDoc t

end

/-- The `DecodeError` variants of `decode.rs` reachable in the binary
decoder (`IoError` covers every underlying reader failure, in particular
`UnexpectedEof`; formatted message strings are dropped). -/
inductive DecodeError where
  | ioError
  | fromUtf8Error
  | unrecognizedElementType (tag : Nat)
  | invalidArrayKey (expected : Nat) (got : Str)
  | invalidLength (len : Nat)
  | invalidTimestamp (t : Int)
  | ambiguousTimestamp (t : Int)
deriving DecidableEq, Repr

/-- A reader step: an error, or the parsed result with the unread suffix. -/
abbrev DRes (α : Type) := Except DecodeError (α × Bytes)

/-- `read_u8`: one byte, `UnexpectedEof` at end of stream. -/
def readU8 (bs : Bytes) : DRes Nat :=
  match bs with
  | [] => .error .ioError
  | b :: r => .ok (b, r)

/-- `read_exact`-style consumption of `n` bytes (`byteorder` reads). -/
def readExact (n : Nat) (bs : Bytes) : DRes Bytes :=
  if n ≤ bs.length then .ok (bs.take n, bs.drop n) else .error .ioError

/-- `read_i32::<LittleEndian>`. -/
def readI32 (bs : Bytes) : DRes Int :=
  match readExact 4 bs with
  | .error e => .error e
  | .ok (chunk, r) => .ok (i32OfU32 (leToNat chunk), r)

/-- `read_i64::<LittleEndian>`. -/
def readI64 (bs : Bytes) : DRes Int :=
  match readExact 8 bs with
  | .error e => .error e
  | .ok (chunk, r) => .ok (i64OfU64 (leToNat chunk), r)

/-- `read_u64::<LittleEndian>`; the 8-byte pattern is also what `read_f64`
yields, so `Double` payloads reuse this reader for their bit pattern. -/
def readU64 (bs : Bytes) : DRes Nat :=
  match readExact 8 bs with
  | .error e => .error e
  | .ok (chunk, r) => .ok (leToNat chunk, r)

/-- `Read::take(n).read_to_end(..)`: up to `n` bytes, never failing. -/
def takeToEnd (n : Nat) (bs : Bytes) : DRes Bytes :=
  .ok (bs.take n, bs.drop n)

/-- The accumulation loop of `read_cstring`: bytes up to an unconsumed
null terminator, `none` when the stream ends first. -/
def cstringBytes : Bytes → Option (Str × Bytes)
  | [] => none
  | b :: r =>
    if b = 0 then some ([], r)
    else match cstringBytes r with
      | none => none
      | some (v, rest) => some (b :: v, rest)

/-- `read_cstring`: null-terminated bytes, strictly validated as UTF-8. -/
def read_cstring (bs : Bytes) : DRes Str :=
  match cstringBytes bs with
  | none => .error .ioError
  | some (v, rest) =>
    if utf8Valid v then .ok (v, rest) else .error .fromUtf8Error

/-- `read_string`: 4-byte length `L` checked against `1 ≤ L ≤ 16 MiB`
before anything is read or allocated, then `L - 1` content bytes decoded
lossily, then one byte for the trailing null. -/
def read_string (bs : Bytes) : DRes Str :=
  match readI32 bs with
  | .error e => .error e
  | .ok (len, r1) =>
    if len < 1 || len > 16777216 then .error (.invalidLength (usizeOfI32 len))
    else
      match takeToEnd (len.toNat - 1) r1 with
      | .error e => .error e
      | .ok (buf, r2) =>
        match readU8 r2 with
        | .error e => .error e
        | .ok (_, r3) => .ok (fromUtf8Lossy buf, r3)

/-- The mutually recursive decoder entry points, tied off by fuel:
`bson` is `decode_bson`'s dispatch on an element tag, `docLoop` and
`arrLoop` the element loops of `decode_document` and `decode_array`. -/
structure Dec where
  docLoop : Document → Bytes → DRes Document
  arrLoop : List Value → Bytes → DRes (List Value)
  bson : Nat → Bytes → DRes Value

/-- The element loop of `decode_document`: read a tag (`0x00` terminates),
a key cstring, the element value, and insert preserving read order. -/
def docLoopF (p : Dec) (acc : Document) (bs : Bytes) : DRes Document :=
  match readU8 bs with
  | .error e => .error e
  | .ok (tag, r1) =>
    if tag = 0 then .ok (acc, r1)
    else
      match read_cstring r1 with
      | .error e => .error e
      | .ok (key, r2) =>
        match p.bson tag r2 with
        | .error e => .error e
        | .ok (val, r3) => p.docLoop (docInsert acc key val) r3

/-- The element loop of `decode_array`: as for documents, but the key,
parsed as `usize`, must equal the element's zero-based position; any
mismatch or parse failure is `InvalidArrayKey(expected, key)`. -/
def arrLoopF (p : Dec) (acc : List Value) (bs : Bytes) : DRes (List Value) :=
  match readU8 bs with
  | .error e => .error e
  | .ok (tag, r1) =>
    if tag = 0 then .ok (acc, r1)
    else
      match read_cstring r1 with
      | .error e => .error e
      | .ok (key, r2) =>
        match parseUsize key with
        | none => .error (.invalidArrayKey acc.length key)
        | some idx =>
          if idx ≠ acc.length then .error (.invalidArrayKey acc.length key)
          else
            match p.bson tag r2 with
            | .error e => .error e
            | .ok (val, r3) => p.arrLoop (acc ++ [val]) r3

/-- `decode_bson`'s dispatch on the element tag. The tag table is the one
`ElementType::from` recognizes; `Undefined` (0x06), `DBPointer` (0x0C),
`MaxKey` (0x7F), `MinKey` (0xFF) and unknown bytes all fall through to
`UnrecognizedElementType`. Nested documents and arrays read and discard
their length prefix and enter the element loop. -/
def bsonF (p : Dec) (tag : Nat) (bs : Bytes) : DRes Value :=
  if tag = 0x01 then
    match readU64 bs with
    | .error e => .error e
    | .ok (bits, r) => .ok (.Double bits, r)
  else if tag = 0x02 then
    match read_string bs with
    | .error e => .error e
    | .ok (s, r) => .ok (.String s, r)
  else if tag = 0x03 then
    match readI32 bs with
    | .error e => .error e
    | .ok (_, r1) =>
      match p.docLoop [] r1 with
      | .error e => .error e
      | .ok (d, r2) => .ok (.Document d, r2)
  else if tag = 0x04 then
    match readI32 bs with
    | .error e => .error e
    | .ok (_, r1) =>
      match p.arrLoop [] r1 with
      | .error e => .error e
      | .ok (xs, r2) => .ok (.Array xs, r2)
  else if tag = 0x05 then
    match readI32 bs with
    | .error e => .error e
    | .ok (len, r1) =>
      match readU8 r1 with
      | .error e => .error e
      | .ok (subtype, r2) =>
        match takeToEnd (u64OfI32 len) r2 with
        | .error e => .error e
        | .ok (data, r3) => .ok (.Binary subtype data, r3)
  else if tag = 0x07 then
    match readExact 12 bs with
    | .error e => .error e
    | .ok (id, r) => .ok (.ObjectId id, r)
  else if tag = 0x08 then
    match readU8 bs with
    | .error e => .error e
    | .ok (b, r) => .ok (.Boolean (b ≠ 0), r)
  else if tag = 0x09 then
    match readI64 bs with
    | .error e => .error e
    | .ok (time, r) =>
      let tempMsec := time.tmod 1000
      let msec := if tempMsec < 0 then 1000 - tempMsec else tempMsec
      match timestampOpt (time.tdiv 1000) (msec.toNat * 1000000) with
      | none => .error (.invalidTimestamp time)
      | some t => .ok (.UTCDatetime t, r)
  else if tag = 0x0A then .ok (.Null, bs)
  else if tag = 0x0B then
    match read_cstring bs with
    | .error e => .error e
    | .ok (pat, r1) =>
      match read_cstring r1 with
      | .error e => .error e
      | .ok (opt, r2) => .ok (.RegExp pat opt, r2)
  else if tag = 0x0D then
    match read_string bs with
    | .error e => .error e
    | .ok (s, r) => .ok (.JavaScriptCode s, r)
  else if tag = 0x0E then
    match read_string bs with
    | .error e => .error e
    | .ok (s, r) => .ok (.Symbol s, r)
  else if tag = 0x0F then
    match readI32 bs with
    | .error e => .error e
    | .ok (_, r1) =>
      match read_string r1 with
      | .error e => .error e
      | .ok (code, r2) =>
        match readI32 r2 with
        | .error e => .error e
        | .ok (_, r3) =>
          match p.docLoop [] r3 with
          | .error e => .error e
          | .ok (scope, r4) => .ok (.JavaScriptCodeWithScope code scope, r4)
  else if tag = 0x10 then
    match readI32 bs with
    | .error e => .error e
    | .ok (v, r) => .ok (.Int32 v, r)
  else if tag = 0x11 then
    match readU64 bs with
    | .error e => .error e
    | .ok (u, r) => .ok (.TimeStamp (i64OfU64 u), r)
  else if tag = 0x12 then
    match readI64 bs with
    | .error e => .error e
    | .ok (v, r) => .ok (.Int64 v, r)
  else .error (.unrecognizedElementType tag)

/-- The fuel-indexed decoder: each recursive step moves to the previous
level, and an exhausted level reports the end-of-stream I/O failure (shown
unreachable for the fuel the entry points pass). -/
def mkDec : Nat → Dec
  | 0 =>
    ⟨fun _ _ => .error .ioError, fun _ _ => .error .ioError, fun _ _ => .error .ioError⟩
  | fuel + 1 =>
    ⟨docLoopF (mkDec fuel), arrLoopF (mkDec fuel), bsonF (mkDec fuel)⟩

/-- `decode_document`: read and discard the length prefix, then run the
element loop; fuel is one unit per input byte plus one. -/
def decode_document (bs : Bytes) : DRes Document :=
  match readI32 bs with
  | .error e => .error e
  | .ok (_, r) => docLoopF (mkDec (bs.length + 1)) [] r

/-- The UTF-8 bytes of the extended-document key `$regex`. -/
def keyRegex : Str := [36, 114, 101, 103, 101, 120]

/-- The UTF-8 bytes of the extended-document key `$options`. -/
def keyOptions : Str := [36, 111, 112, 116, 105, 111, 110, 115]

/-- The UTF-8 bytes of the extended-document key `$code`. -/
def keyCode : Str := [36, 99, 111, 100, 101]

/-- The UTF-8 bytes of the extended-document key `$scope`. -/
def keyScope : Str := [36, 115, 99, 111, 112, 101]

/-- The UTF-8 bytes of the extended-document key `t`. -/
def keyT : Str := [116]

/-- The UTF-8 bytes of the extended-document key `i`. -/
def keyI : Str := [105]

/-- The UTF-8 bytes of the extended-document key `$binary`. -/
def keyBinary : Str := [36, 98, 105, 110, 97, 114, 121]

/-- The UTF-8 bytes of the extended-document key `type`. -/
def keyType : Str := [116, 121, 112, 101]

/-- The UTF-8 bytes of the extended-document key `$oid`. -/
def keyOid : Str := [36, 111, 105, 100]

/-- The UTF-8 bytes of the extended-document key `$date`. -/
def keyDate : Str := [36, 100, 97, 116, 101]

/-- The UTF-8 bytes of the extended-document key `$numberLong`. -/
def keyNumberLong : Str := [36, 110, 117, 109, 98, 101, 114, 76, 111, 110, 103]

/-- The UTF-8 bytes of the extended-document key `$symbol`. -/
def keySymbol : Str := [36, 115, 121, 109, 98, 111, 108]

/-- Modelled from the spec: `ObjectId::with_string` of the opaque-identifier
collaborator (`object_id.rs`, not in the sources), reconstructing the 12
raw bytes from their hex string; `none` is the parse failure its `unwrap`
would turn into a panic. -/
def oidWithString (s : Str) : Option Bytes :=
  match fromHex s with
  | some bs => if bs.length = 12 then some bs else none
  | none => none

/-- `Value::to_extended_document`: the tagged sub-document shape of each
exotic variant, in the source's key order; `none` models the
programming-error panic on natively representable variants. The `ObjectId`
hex form is modelled from the spec (its `to_string` is the hex of the 12
bytes). -/
def to_extended_document : Value → Option Document
  | .RegExp pat opt => some [(keyRegex, .String pat), (keyOptions, .String opt)]
  | .JavaScriptCode code => some [(keyCode, .String code)]
  | .JavaScriptCodeWithScope code scope =>
    some [(keyCode, .String code), (keyScope, .Document scope)]
  | .TimeStamp v =>
    some [(keyT, .Int32 (wrapI32 (v / (2 ^ 32 : Int)))),
          (keyI, .Int32 (wrapI32 (v % (2 ^ 32 : Int))))]
  | .Binary t v => some [(keyBinary, .String (toHex v)), (keyType, .Int64 (t : Int))]
  | .ObjectId v => some [(keyOid, .String (toHex v))]
  | .UTCDatetime dt => some [(keyDate, .Document [(keyNumberLong, .Int64 (utcMillis dt))])]
  | .Symbol s => some [(keySymbol, .String s)]
  | _ => none

/-- `Value::from_extended_document`: shape matching over documents of size
2 then 1, in the source's branch order, falling back to a plain `Document`
value. `none` models the panics its `unwrap`s and `Utc.timestamp` can
raise (bad hex, bad object id, out-of-range nanoseconds). -/
def from_extended_document (values : Document) : Option Value :=
  if values.length = 2 then
    match get_str values keyRegex, get_str values keyOptions with
    | .ok pat, .ok opt => some (.RegExp pat opt)
    | _, _ =>
      match get_str values keyCode, get_document values keyScope with
      | .ok code, .ok scope => some (.JavaScriptCodeWithScope code scope)
      | _, _ =>
        match get_i32 values keyT, get_i32 values keyI with
        | .ok t, .ok i => some (.TimeStamp (wrapI64 (t * 2 ^ 32 + i)))
        | _, _ =>
          match get_i64 values keyT, get_i64 values keyI with
          | .ok t, .ok i => some (.TimeStamp (wrapI64 (t * 2 ^ 32 + i)))
          | _, _ =>
            match get_str values keyBinary, get_i64 values keyType with
            | .ok hex, .ok t =>
              match fromHex hex with
              | some data => some (.Binary (u8OfI64 t) data)
              | none => none
            | _, _ => some (.Document values)
  else if values.length = 1 then
    match get_str values keyCode with
    | .ok code => some (.JavaScriptCode code)
    | _ =>
      match get_str values keyOid with
      | .ok hex =>
        match oidWithString hex with
        | some id => some (.ObjectId id)
        | none => none
      | _ =>
        match
          (match get_document values keyDate with
           | .ok inner => get_i64 inner keyNumberLong
           | .error e => .error e) with
        | .ok long =>
          match timestampOpt (long.tdiv 1000) (u32OfI64 (long.tmod 1000 * 1000000)) with
          | some t => some (.UTCDatetime t)
          | none => none
        | _ =>
          match get_str values keySymbol with
          | .ok s => some (.Symbol s)
          | _ => some (.Document values)
  else some (.Document values)

/-- The shapes a value can present to the generic serializer: the data
model of the host serialization framework's `Serializer` contract
(unsigned widths carry `Nat`, signed ones `Int`, floating point its bit
pattern; composites carry their parts). -/
inductive SerdeVal where
  | boolV (b : Bool)
  | i8V (v : Int)
  | i16V (v : Int)
  | i32V (v : Int)
  | i64V (v : Int)
  | u8V (v : Nat)
  | u16V (v : Nat)
  | u32V (v : Nat)
  | u64V (v : Nat)
  | f64V (bits : Nat)
  | strV (s : Str)
  | bytesV (b : Bytes)
  | noneV
  | someV (v : SerdeVal)
  | unitV
  | unitStructV
  | unitVariantV (variant : Str)
  | newtypeStructV (v : SerdeVal)
  | newtypeVariantV (variant : Str) (v : SerdeVal)
  | seqV (xs : List SerdeVal)
  | tupleV (xs : List SerdeVal)
  | tupleStructV (xs : List SerdeVal)
  | tupleVariantV (variant : Str) (xs : List SerdeVal)
  | mapV (entries : List (SerdeVal × SerdeVal))
  | structV (fields : List (Str × SerdeVal))
  | structVariantV (variant : Str) (fields : List (Str × SerdeVal))

/-- The `EncodeError` enum of `encode.rs` (message payloads dropped). -/
inductive EncodeError where
  | ioError
  | invalidMapKeyType (v : Value)
  | unknown
  | unsupportedUnsignedType

/-- Outcome classification for the serializer: an `EncodeError` result, or
a panic raised inside `from_extended_document`. -/
inductive SerFailure where
  | encodeError (e : EncodeError)
  | panicked

mutual

/-- `encode::to_bson` through the `Encoder` serializer of
`serde_impl/encode.rs`: primitive dispatch, unsigned rejection, and the
composite serializers (`Array` collection, map/struct documents finished
through `from_extended_document`, variant wrapping). -/
def to_bson : SerdeVal → Except SerFailure Value
  | .boolV b => .ok (.Boolean b)
  | .i8V v => .ok (.Int32 v)
  | .i16V v => .ok (.Int32 v)
  | .i32V v => .ok (.Int32 v)
  | .i64V v => .ok (.Int64 v)
  | .u8V _ => .error (.encodeError .unsupportedUnsignedType)
  | .u16V _ => .error (.encodeError .unsupportedUnsignedType)
  | .u32V _ => .error (.encodeError .unsupportedUnsignedType)
  | .u64V _ => .error (.encodeError .unsupportedUnsignedType)
  | .f64V bits => .ok (.Double bits)
  | .strV s => .ok (.String s)
  | .bytesV b => .ok (.Binary 0 b)
  | .noneV => .ok .Null
  | .someV v => to_bson v
  | .unitV => .ok .Null
  | .unitStructV => .ok .Null
  | .unitVariantV variant => .ok (.String variant)
  | .newtypeStructV v => to_bson v
  | .newtypeVariantV variant v =>
    match to_bson v with
    | .error e => .error e
    | .ok w => .ok (.Document (docInsert [] variant w))
  | .seqV xs =>
    match to_bson_elems xs with
    | .error e => .error e
    | .ok l => .ok (.Array l)
  | .tupleV xs =>
    match to_bson_elems xs with
    | .error e => .error e
    | .ok l => .ok (.Array l)
  | .tupleStructV xs =>
    match to_bson_elems xs with
    | .error e => .error e
    | .ok l => .ok (.Array l)
  | .tupleVariantV variant xs =>
    match to_bson_elems xs with
    | .error e => .error e
    | .ok l => .ok (.Document (docInsert [] variant (.Array l)))
  | .mapV entries =>
    match ser_map entries [] with
    | .error e => .error e
    | .ok doc =>
      match from_extended_document doc with
      | some v => .ok v
      | none => .error .panicked
  | .structV fields =>
    match ser_struct fields [] with
    | .error e => .error e
    | .ok doc =>
      match from_extended_document doc with
      | some v => .ok v
      | none => .error .panicked
  | .structVariantV variant fields =>
    match ser_struct fields [] with
    | .error e => .error e
    | .ok doc =>
      match from_extended_document doc with
      | some var => .ok (.Document (docInsert [] variant var))
      | none => .error .panicked

/-- The element collection of the sequence/tuple serializers. -/
def to_bson_elems : List SerdeVal → Except SerFailure (List Value)
  | [] => .ok []
  | v :: t =>
    match to_bson v with
    | .error e => .error e
    | .ok w =>
      match to_bson_elems t with
      | .error e => .error e
      | .ok ws => .ok (w :: ws)

/-- `MapSerializer`: each key must serialize to a `String` (any other
shape is `InvalidMapKeyType`, and a key serialization error propagates
first), values are serialized and inserted in order. -/
def ser_map : List (SerdeVal × SerdeVal) → Document → Except SerFailure Document
  | [], acc => .ok acc
  | (k, v) :: t, acc =>
    match to_bson k with
    | .error e => .error e
    | .ok (.String s) =>
      match to_bson v with
      | .error e => .error e
      | .ok w => ser_map t (docInsert acc s w)
    | .ok other => .error (.encodeError (.invalidMapKeyType other))

/-- `StructSerializer`: fields are serialized and inserted in order under
their static names. -/
def ser_struct : List (Str × SerdeVal) → Document → Except SerFailure Document
  | [], acc => .ok acc
  | (k, v) :: t, acc =>
    match to_bson v with
    | .error e => .error e
    | .ok w => ser_struct t (docInsert acc k w)

end

/-- `From<u32> for Value`: `Value::Int32(a as i32)`. -/
def valueFromU32 (a : Nat) : Value := .Int32 (wrapI32 a)

/-- `From<u64> for Value`: `Value::Int64(a as i64)`. -/
def valueFromU64 (a : Nat) : Value := .Int64 (wrapI64 a)

/-! ### Nat-level reader lemmas -/

theorem natToLE_length (w n : Nat) : (natToLE w n).length = w := by
  induction w generalizing n with
  | zero => rfl
  | succ w ih => simp [natToLE, ih]

theorem nat_mod_mul_decomp (n a b : Nat) (ha : 0 < a) :
    n % (a * b) = n % a + a * (n / a % b) := by
  rcases Nat.eq_zero_or_pos b with hb | hb
  · subst hb
    simp [Nat.mod_add_div]
  · have key : n = (n % a + a * (n / a % b)) + (a * b) * (n / a / b) := by
      conv_lhs => rw [← Nat.mod_add_div n a]
      conv_lhs => rw [← Nat.mod_add_div (n / a) b]
      ring
    have h1 : n % a < a := Nat.mod_lt _ ha
    have h2 : n / a % b < b := Nat.mod_lt _ hb
    have hlt : n % a + a * (n / a % b) < a * b := by
      calc n % a + a * (n / a % b) < a + a * (n / a % b) := by omega
        _ = a * (n / a % b + 1) := by ring
        _ ≤ a * b := Nat.mul_le_mul_left a (by omega)
    conv_lhs => rw [key]
    rw [Nat.add_mul_mod_self_left, Nat.mod_eq_of_lt hlt]

theorem leToNat_natToLE (w n : Nat) : leToNat (natToLE w n) = n % 256 ^ w := by
  induction w generalizing n with
  | zero => simp [natToLE, leToNat, Nat.mod_one]
  | succ w ih =>
    rw [natToLE, leToNat, ih, Nat.pow_succ']
    exact (nat_mod_mul_decomp n 256 (256 ^ w) (by omega)).symm

theorem take_append_exact (a b : List Nat) : (a ++ b).take a.length = a := by
  induction a with
  | nil => rfl
  | cons x t ih => simp [ih]

theorem drop_append_exact (a b : List Nat) : (a ++ b).drop a.length = b := by
  induction a with
  | nil => rfl
  | cons x t ih => simp [ih]

theorem readExact_append (a b : List Nat) :
    readExact a.length (a ++ b) = .ok (a, b) := by
  rw [readExact, if_pos (by simp), take_append_exact, drop_append_exact]

theorem readExact_short (n : Nat) (bs : Bytes) (h : bs.length < n) :
    readExact n bs = .error .ioError := by
  rw [readExact, if_neg (by omega)]

theorem readI32_bytes (c : Bytes) (r : Bytes) (h : c.length = 4) :
    readI32 (c ++ r) = .ok (i32OfU32 (leToNat c), r) := by
  rw [readI32, ← h, readExact_append]

theorem readI32_i32le (v : Int) (r : Bytes) (h1 : -(2 ^ 31) ≤ v) (h2 : v < 2 ^ 31) :
    readI32 (i32le v ++ r) = .ok (v, r) := by
  rw [i32le, readI32_bytes _ _ (natToLE_length _ _), leToNat_natToLE]
  have hlt : (v % (2 ^ 32 : Int)).toNat < 256 ^ 4 := by omega
  rw [Nat.mod_eq_of_lt hlt, i32OfU32]
  congr 2
  split
  · rename_i hsmall
    omega
  · rename_i hbig
    omega

theorem readI32_short (bs : Bytes) (h : bs.length < 4) :
    readI32 bs = .error .ioError := by
  rw [readI32, readExact_short _ _ h]

theorem readI64_bytes (c : Bytes) (r : Bytes) (h : c.length = 8) :
    readI64 (c ++ r) = .ok (i64OfU64 (leToNat c), r) := by
  rw [readI64, ← h, readExact_append]

theorem readI64_i64le (v : Int) (r : Bytes) (h1 : -(2 ^ 63) ≤ v) (h2 : v < 2 ^ 63) :
    readI64 (i64le v ++ r) = .ok (v, r) := by
  rw [i64le, readI64_bytes _ _ (natToLE_length _ _), leToNat_natToLE]
  have hlt : (v % (2 ^ 64 : Int)).toNat < 256 ^ 8 := by omega
  rw [Nat.mod_eq_of_lt hlt, i64OfU64]
  congr 2
  split
  · rename_i hsmall
    omega
  · rename_i hbig
    omega

theorem readI64_short (bs : Bytes) (h : bs.length < 8) :
    readI64 bs = .error .ioError := by
  rw [readI64, readExact_short _ _ h]

theorem readU64_bytes (c : Bytes) (r : Bytes) (h : c.length = 8) :
    readU64 (c ++ r) = .ok (leToNat c, r) := by
  rw [readU64, ← h, readExact_append]

theorem readU64_natToLE (n : Nat) (r : Bytes) (h : n < 2 ^ 64) :
    readU64 (natToLE 8 n ++ r) = .ok (n, r) := by
  rw [readU64_bytes _ _ (natToLE_length _ _), leToNat_natToLE]
  congr 2
  omega

theorem readU64_short (bs : Bytes) (h : bs.length < 8) :
    readU64 bs = .error .ioError := by
  rw [readU64, readExact_short _ _ h]

theorem cstringBytes_append (k : Str) (r : Bytes) (hk : ∀ c ∈ k, c ≠ 0) :
    cstringBytes (k ++ 0 :: r) = some (k, r) := by
  induction k with
  | nil => rfl
  | cons c t ih =>
    have hc : c ≠ 0 := hk c (by simp)
    rw [List.cons_append, cstringBytes, if_neg hc,
      ih (fun x hx => hk x (by simp [hx]))]

theorem read_cstring_append (k : Str) (r : Bytes) (hk : ∀ c ∈ k, c ≠ 0)
    (hu : utf8Valid k = true) : read_cstring (k ++ 0 :: r) = .ok (k, r) := by
  simp [read_cstring, cstringBytes_append k r hk, hu]

/-- A stream that ends inside a null-free byte run has no terminator, so the
cstring accumulation loop hits end of stream. -/
theorem cstringBytes_noTerm (p : Bytes) (hp : ∀ c ∈ p, c ≠ 0) :
    cstringBytes p = none := by
  induction p with
  | nil => rfl
  | cons c t ih =>
    rw [cstringBytes, if_neg (hp c (by simp)), ih (fun x hx => hp x (by simp [hx]))]

theorem read_cstring_noTerm (p : Bytes) (hp : ∀ c ∈ p, c ≠ 0) :
    read_cstring p = .error .ioError := by
  rw [read_cstring, cstringBytes_noTerm p hp]

theorem takeToEnd_append (n : Nat) (a b : List Nat) (h : a.length = n) :
    takeToEnd n (a ++ b) = .ok (a, b) := by
  subst h
  rw [takeToEnd, take_append_exact, drop_append_exact]

theorem take_append_of_length (n : Nat) (a b : List Nat) (h : a.length = n) :
    (a ++ b).take n = a := by
  subst h
  exact take_append_exact a b

theorem drop_append_of_length (n : Nat) (a b : List Nat) (h : a.length = n) :
    (a ++ b).drop n = b := by
  subst h
  exact drop_append_exact a b

theorem readI32_write_string_prefix (s : Str) (r : Bytes)
    (hlen : s.length + 1 ≤ 16777216) :
    readI32 (natToLE 4 (s.length + 1) ++ r) = .ok ((s.length : Int) + 1, r) := by
  rw [readI32_bytes _ _ (natToLE_length _ _), leToNat_natToLE,
    Nat.mod_eq_of_lt (by omega), i32OfU32, if_pos (by omega)]
  congr 2

theorem read_string_write_string (s : Str) (r : Bytes)
    (hu : utf8Valid s = true) (hlen : s.length + 1 ≤ 16777216) :
    read_string (write_string s ++ r) = .ok (s, r) := by
  have henc : write_string s ++ r = natToLE 4 (s.length + 1) ++ (s ++ (0 :: r)) := by
    rw [write_string]
    simp [List.append_assoc]
  rw [henc, read_string, readI32_write_string_prefix _ _ hlen]
  have hcond : ((decide ((s.length : Int) + 1 < 1) || decide ((s.length : Int) + 1 > 16777216))) = false := by
    simp only [Bool.or_eq_false_iff, decide_eq_false_iff_not]
    constructor
    · omega
    · omega
  simp only [hcond, Bool.false_eq_true, if_false]
  have htn : (((s.length : Int) + 1)).toNat - 1 = s.length := by omega
  rw [htn, takeToEnd_append _ _ _ rfl]
  simp [readU8, fromUtf8Lossy, hu]

/-- Truncating anywhere inside an encoded string element leaves the reader
at end of stream: the missing bytes are only noticed at the trailing-null
read, which fails with the I/O error. -/
theorem read_string_trunc (s : Str) (p : Bytes)
    (hlen : s.length + 1 ≤ 16777216)
    (hpre : p <+: write_string s) (hne : p ≠ write_string s) :
    read_string p = .error .ioError := by
  obtain ⟨q, hq⟩ := hpre
  have hqpos : q ≠ [] := by
    intro h0
    subst h0
    simp only [List.append_nil] at hq
    exact hne hq
  have hqlen : 0 < q.length := List.length_pos.mpr hqpos
  by_cases hshort : p.length < 4
  · rw [read_string, readI32_short _ hshort]
  · obtain ⟨c, p', hc4, hsplit⟩ : ∃ c p', c.length = 4 ∧ p = c ++ p' := by
      refine ⟨p.take 4, p.drop 4, ?_, (List.take_append_drop 4 p).symm⟩
      rw [List.length_take]
      omega
    have hj : c ++ (p' ++ q) = natToLE 4 (s.length + 1) ++ (s ++ [0]) := by
      rw [← List.append_assoc, ← hsplit, hq, write_string, List.append_assoc]
    have hcpre : c = natToLE 4 (s.length + 1) := by
      have h1 : (c ++ (p' ++ q)).take 4 = c := take_append_of_length 4 _ _ hc4
      have h2 : (natToLE 4 (s.length + 1) ++ (s ++ [0])).take 4 =
          natToLE 4 (s.length + 1) := take_append_of_length 4 _ _ (natToLE_length _ _)
      rw [← h1, hj, h2]
    subst hcpre
    subst hsplit
    have hptail : p' ++ q = s ++ [0] := by
      have := hj
      rwa [List.append_cancel_left_eq] at this
    have hp'len : p'.length ≤ s.length := by
      have : (p' ++ q).length = (s ++ [0]).length := by rw [hptail]
      simp only [List.length_append, List.length_cons, List.length_nil] at this
      omega
    rw [read_string, readI32_write_string_prefix _ _ hlen]
    have hcond : ((decide ((s.length : Int) + 1 < 1) || decide ((s.length : Int) + 1 > 16777216))) = false := by
      simp only [Bool.or_eq_false_iff, decide_eq_false_iff_not]
      constructor
      · omega
      · omega
    simp only [hcond, Bool.false_eq_true, if_false]
    have htn : (((s.length : Int) + 1)).toNat - 1 = s.length := by omega
    rw [htn, takeToEnd]
    have hdrop : p'.drop s.length = [] := List.drop_eq_nil_of_le hp'len
    rw [hdrop]
    rfl

/-! ### Decimal array keys -/

theorem parseUsizeDigits_append (a b : Str) (acc : Nat) :
    parseUsizeDigits (a ++ b) acc =
      match parseUsizeDigits a acc with
      | some m => parseUsizeDigits b m
      | none => none := by
  induction a generalizing acc with
  | nil => rfl
  | cons c t ih =>
    rw [List.cons_append, parseUsizeDigits, parseUsizeDigits]
    by_cases hd : (48 ≤ c && c ≤ 57) = true
    · rw [if_pos hd, if_pos hd]
      by_cases hov : acc * 10 + (c - 48) < 2 ^ 64
      · rw [if_pos hov, if_pos hov, ih]
      · rw [if_neg hov, if_neg hov]
    · rw [if_neg hd, if_neg hd]

theorem natToDecAux_digits (fuel n : Nat) :
    ∀ c ∈ natToDecAux fuel n, 48 ≤ c ∧ c ≤ 57 := by
  induction fuel generalizing n with
  | zero => intro c hc; simp [natToDecAux] at hc
  | succ fuel ih =>
    intro c hc
    rw [natToDecAux] at hc
    by_cases hn : n = 0
    · rw [if_pos hn] at hc; simp at hc
    · rw [if_neg hn] at hc
      rcases List.mem_append.mp hc with h | h
      · exact ih (n / 10) c h
      · obtain rfl := List.mem_singleton.mp h
        omega

theorem natToDecAux_ne_nil (fuel n : Nat) (hf : n ≤ fuel) (hn : 0 < n) :
    natToDecAux fuel n ≠ [] := by
  cases fuel with
  | zero => omega
  | succ fuel =>
    rw [natToDecAux, if_neg (by omega)]
    intro h
    rcases List.append_eq_nil.mp h with ⟨_, h2⟩
    exact List.cons_ne_nil _ _ h2

theorem natToDecAux_spec (fuel : Nat) :
    ∀ n acc, n ≤ fuel → 0 < n →
      acc * 10 ^ (natToDecAux fuel n).length + n < 2 ^ 64 →
      parseUsizeDigits (natToDecAux fuel n) acc =
        some (acc * 10 ^ (natToDecAux fuel n).length + n) := by
  induction fuel with
  | zero => intro n acc h1 h2; omega
  | succ fuel ih =>
    intro n acc h1 h2 hbound
    rw [natToDecAux, if_neg (by omega)] at hbound ⊢
    rw [parseUsizeDigits_append]
    by_cases hsmall : n < 10
    · have hzero : natToDecAux fuel (n / 10) = [] := by
        have : n / 10 = 0 := by omega
        rw [this]
        cases fuel with
        | zero => rfl
        | succ f => rw [natToDecAux, if_pos rfl]
      rw [hzero] at hbound ⊢
      simp only [List.nil_append, List.length_cons, List.length_nil] at hbound ⊢
      simp only [parseUsizeDigits]
      have hd : (48 ≤ 48 + n % 10 && 48 + n % 10 ≤ 57) = true := by
        simp only [Bool.and_eq_true, decide_eq_true_eq]
        omega
      rw [if_pos hd]
      rw [show acc * 10 + (48 + n % 10 - 48) = acc * 10 ^ 1 + n by omega]
      rw [if_pos (by omega)]
    · have hlen : (natToDecAux fuel (n / 10) ++ [48 + n % 10]).length =
          (natToDecAux fuel (n / 10)).length + 1 := by simp
      rw [hlen] at hbound
      set k := (natToDecAux fuel (n / 10)).length with hk
      have hstep : acc * 10 ^ (k + 1) + n =
          (acc * 10 ^ k + n / 10) * 10 + n % 10 := by
        rw [pow_succ]
        have : n / 10 * 10 + n % 10 = n := by omega
        ring_nf
        omega
      have hib : acc * 10 ^ k + n / 10 < 2 ^ 64 := by omega
      have := ih (n / 10) acc (by omega) (by omega) hib
      rw [this]
      simp only [parseUsizeDigits]
      have hd : (48 ≤ 48 + n % 10 && 48 + n % 10 ≤ 57) = true := by
        simp only [Bool.and_eq_true, decide_eq_true_eq]
        omega
      rw [if_pos hd]
      have harg : (acc * 10 ^ k + n / 10) * 10 + (48 + n % 10 - 48) =
          acc * 10 ^ (k + 1) + n := by omega
      rw [harg, if_pos (by omega), hlen]

theorem natToDec_digits (n : Nat) : ∀ c ∈ natToDec n, 48 ≤ c ∧ c ≤ 57 := by
  rw [natToDec]
  by_cases hn : n = 0
  · rw [if_pos hn]
    intro c hc
    obtain rfl := List.mem_singleton.mp hc
    omega
  · rw [if_neg hn]
    exact natToDecAux_digits n n

theorem parseUsize_natToDec (i : Nat) (h : i < 2 ^ 64) :
    parseUsize (natToDec i) = some i := by
  by_cases hi : i = 0
  · subst hi
    decide
  · rw [natToDec, if_neg hi]
    obtain ⟨c, t, hct⟩ := List.exists_cons_of_ne_nil
      (natToDecAux_ne_nil i i (Nat.le_refl i) (Nat.pos_of_ne_zero hi))
    have hcr : 48 ≤ c ∧ c ≤ 57 := natToDecAux_digits i i c (by rw [hct]; simp)
    have hp : parseUsize (natToDecAux i i) = parseUsizeDigits (natToDecAux i i) 0 := by
      rw [hct]
      simp only [parseUsize]
      rw [if_neg (by omega)]
    rw [hp]
    have hs := natToDecAux_spec i i 0 (Nat.le_refl i) (Nat.pos_of_ne_zero hi)
      (by simp only [Nat.zero_mul, Nat.zero_add]; exact h)
    rw [hs]
    simp only [Nat.zero_mul, Nat.zero_add]

theorem utf8Valid_of_ascii (s : Str) (h : ∀ c ∈ s, c < 128) :
    utf8Valid s = true := by
  induction s with
  | nil => rfl
  | cons b t ih =>
    rw [utf8Valid, if_pos (h b (List.mem_cons_self b t))]
    exact ih (fun c hc => h c (List.mem_cons_of_mem b hc))

theorem natToDec_key_ok (n : Nat) :
    utf8Valid (natToDec n) = true ∧ ∀ c ∈ natToDec n, c ≠ 0 := by
  refine ⟨utf8Valid_of_ascii _ (fun c hc => ?_), fun c hc => ?_⟩
  · have := natToDec_digits n c hc
    omega
  · have := natToDec_digits n c hc
    omega

/-! ### Claim theorems: decoder error paths and simple conversions -/

/-- C2: the decoder's UTCDatetime branch mishandles negative milliseconds.
For the input -1 ms the code computes `1000 - (-1) = 1001` as the
millisecond remainder instead of normalizing forward, yielding a
nanosecond field of 1\,001\,000\,000 — outside `0..=999_999_999` — and an
instant whose re-encoded millisecond value is `1001`, not `-1`. This
evaluates the code at the failing input; the claim's property (remainder
normalized into the prior second, instant preserved) fails. -/
theorem c2_negative_millis_evaluation (p : Dec) :
    bsonF p 0x09 (i64le (-1)) = .ok (.UTCDatetime ⟨0, 1001000000⟩, []) ∧
    ¬(1001000000 ≤ 999999999) ∧
    utcMillis ⟨0, 1001000000⟩ ≠ (-1 : Int) := by
  refine ⟨rfl, by decide, by decide⟩

/-- C5: in the array-decoding loop, an element whose key does not parse as
the element's zero-based position (non-numeric keys included) fails with
`InvalidArrayKey` carrying the expected index and the offending key, before
any payload is read and regardless of the rest of the stream: the decoder
never silently reindexes. -/
theorem c5_array_key_mismatch (p : Dec) (acc : List Value) (tag : Nat) (k : Str)
    (r : Bytes) (htag : tag ≠ 0) (hnul : ∀ c ∈ k, c ≠ 0) (hu : utf8Valid k = true)
    (hbad : ∀ j, parseUsize k = some j → j ≠ acc.length) :
    arrLoopF p acc (tag :: (k ++ 0 :: r)) = .error (.invalidArrayKey acc.length k) := by
  rw [arrLoopF]
  simp only [readU8]
  rw [if_neg htag, read_cstring_append k r hnul hu]
  cases hp : parseUsize k with
  | none => simp only [hp]
  | some j =>
    simp only [hp]
    rw [if_pos (hbad j hp)]

/-- C5 witness: an array whose second element is keyed `"2"` instead of
`"1"` fails with the error reporting expected index 1, got `"2"` (byte 50). -/
theorem c5_array_key_mismatch_witness :
    ((0x10 : Nat) ≠ 0) ∧ utf8Valid [50] = true ∧ parseUsize [50] = some 2 ∧
    arrLoopF (mkDec 5) [.Int32 1] (0x10 :: ([50] ++ 0 :: [2, 0, 0, 0])) =
      .error (.invalidArrayKey 1 [50]) := by
  refine ⟨by decide, by decide, rfl, ?_⟩
  exact c5_array_key_mismatch (mkDec 5) [.Int32 1] 0x10 [50] [2, 0, 0, 0]
    (by decide) (by decide) (by decide)
    (fun j hj => by
      rw [show parseUsize [50] = some 2 from rfl] at hj
      injection hj with h
      simp only [List.length_cons, List.length_nil]
      omega)

/-- C6: a string/code/symbol element whose declared 4-byte length is
outside `1 ..= 16 MiB` fails with `InvalidLength` carrying the length cast
to `usize`, whatever follows the length field (in particular nothing of
the claimed size needs to be present — the check precedes any read of the
payload). -/
theorem c6_string_length_bound (len : Int) (r : Bytes)
    (h1 : -(2 ^ 31) ≤ len) (h2 : len < 2 ^ 31) (hbad : len < 1 ∨ len > 16777216) :
    read_string (i32le len ++ r) = .error (.invalidLength (usizeOfI32 len)) ∧
    (∀ p : Dec, bsonF p 0x02 (i32le len ++ r) = .error (.invalidLength (usizeOfI32 len))) ∧
    (∀ p : Dec, bsonF p 0x0D (i32le len ++ r) = .error (.invalidLength (usizeOfI32 len))) ∧
    (∀ p : Dec, bsonF p 0x0E (i32le len ++ r) = .error (.invalidLength (usizeOfI32 len))) := by
  have hc : (decide (len < 1) || decide (len > 16777216)) = true := by
    rcases hbad with h | h
    · simp [h]
    · simp [h]
  have hrs : read_string (i32le len ++ r) = .error (.invalidLength (usizeOfI32 len)) := by
    rw [read_string, readI32_i32le len r h1 h2]
    simp only [hc]
    rw [if_pos trivial]
  refine ⟨hrs, fun p => ?_, fun p => ?_, fun p => ?_⟩
  · rw [bsonF, if_neg (by decide), if_pos rfl, hrs]
  · rw [bsonF, if_neg (by decide), if_neg (by decide), if_neg (by decide),
      if_neg (by decide), if_neg (by decide), if_neg (by decide), if_neg (by decide),
      if_neg (by decide), if_neg (by decide), if_neg (by decide), if_pos rfl, hrs]
  · rw [bsonF, if_neg (by decide), if_neg (by decide), if_neg (by decide),
      if_neg (by decide), if_neg (by decide), if_neg (by decide), if_neg (by decide),
      if_neg (by decide), if_neg (by decide), if_neg (by decide), if_neg (by decide),
      if_pos rfl, hrs]

/-- C6 witness: the spec's concrete scenario — a declared string length of
2\,000\,000\,000 fails with the length error on an otherwise empty stream
(nothing close to the claimed size is present or read). -/
theorem c6_string_length_bound_witness :
    (-(2 ^ 31) : Int) ≤ 2000000000 ∧ (2000000000 : Int) < 2 ^ 31 ∧
    ((2000000000 : Int) < 1 ∨ (2000000000 : Int) > 16777216) ∧
    usizeOfI32 2000000000 = 2000000000 ∧
    read_string (i32le 2000000000 ++ []) = .error (.invalidLength (usizeOfI32 2000000000)) := by
  refine ⟨by norm_num, by norm_num, Or.inr (by norm_num), rfl, ?_⟩
  exact (c6_string_length_bound 2000000000 [] (by norm_num) (by norm_num)
    (Or.inr (by norm_num))).1

/-- C7: every unsigned-integer shape fed to the generic serializer is
rejected with `UnsupportedUnsignedType`, whether it is the top-level value
or a struct field; no value is ever produced for it (so nothing is
truncated or cast). -/
theorem c7_unsigned_always_rejected (a b c d e : Nat) (k : Str) :
    to_bson (.u8V a) = .error (.encodeError .unsupportedUnsignedType) ∧
    to_bson (.u16V b) = .error (.encodeError .unsupportedUnsignedType) ∧
    to_bson (.u32V c) = .error (.encodeError .unsupportedUnsignedType) ∧
    to_bson (.u64V d) = .error (.encodeError .unsupportedUnsignedType) ∧
    to_bson (.structV [(k, .u32V e)]) = .error (.encodeError .unsupportedUnsignedType) := by
  exact ⟨rfl, rfl, rfl, rfl, rfl⟩

/-- C10: the `From<u32>`/`From<u64>` conversions into `Value` are total and
reinterpret the unsigned value in two's complement: inputs at or above the
sign bit become the negative `Int32`/`Int64` equal to the input minus the
width's modulus. -/
theorem c10_unsigned_from_conversions (n m : Nat) (hn : n < 2 ^ 32) (hm : m < 2 ^ 64) :
    valueFromU32 n = .Int32 (if n < 2 ^ 31 then (n : Int) else (n : Int) - 2 ^ 32) ∧
    valueFromU64 m = .Int64 (if m < 2 ^ 63 then (m : Int) else (m : Int) - 2 ^ 64) := by
  constructor
  · rw [valueFromU32, wrapI32, show ((n : Int) % (2 ^ 32 : Int)).toNat = n by omega,
      i32OfU32]
  · rw [valueFromU64, wrapI64, show ((m : Int) % (2 ^ 64 : Int)).toNat = m by omega,
      i64OfU64]

/-- C10 witness: `u32::MAX` becomes `Int32(-1)` and `u64::MAX` becomes
`Int64(-1)`; no error is possible on this path. -/
theorem c10_unsigned_from_conversions_witness :
    valueFromU32 (2 ^ 32 - 1) = .Int32 (-1) ∧ valueFromU64 (2 ^ 64 - 1) = .Int64 (-1) := by
  have h := c10_unsigned_from_conversions (2 ^ 32 - 1) (2 ^ 64 - 1)
    (by norm_num) (by norm_num)
  rcases h with ⟨h1, h2⟩
  constructor
  · rw [h1, if_neg (by norm_num)]
    norm_num
  · rw [h2, if_neg (by norm_num)]
    norm_num

/-! ### Document removal (C8) -/

theorem docFindIndex_append (pre : Document) (k : Str) (v : Value) (rest : Document)
    (hk : ∀ p ∈ pre, p.1 ≠ k) :
    docFindIndex (pre ++ (k, v) :: rest) k = some pre.length := by
  induction pre with
  | nil => simp [docFindIndex]
  | cons hd t ih =>
    obtain ⟨hk', hv'⟩ := hd
    rw [List.cons_append, docFindIndex, if_neg (hk (hk', hv') (by simp)),
      ih (fun p hp => hk p (List.mem_cons_of_mem _ hp))]
    simp

theorem docGet_append (pre : Document) (k : Str) (v : Value) (rest : Document)
    (hk : ∀ p ∈ pre, p.1 ≠ k) :
    docGet (pre ++ (k, v) :: rest) k = some v := by
  induction pre with
  | nil => simp [docGet]
  | cons hd t ih =>
    obtain ⟨hk', hv'⟩ := hd
    rw [List.cons_append, docGet, if_neg (hk (hk', hv') (by simp))]
    exact ih (fun p hp => hk p (List.mem_cons_of_mem _ hp))

theorem set_append_cons (pre : List α) (x y : α) (rest : List α) :
    (pre ++ x :: rest).set pre.length y = pre ++ y :: rest := by
  induction pre with
  | nil => rfl
  | cons hd t ih => simp [List.set, ih]

/-- C8 counterexample: removing the first key of a three-entry document
with `Document::remove` yields the remaining entries in the order `c, b`,
not the original relative order `b, c`: `remove` is not order-preserving. -/
theorem c8_remove_not_order_preserving :
    (remove [([97], .Int32 1), ([98], .Int32 2), ([99], .Int32 3)] [97]).2.map Prod.fst
      = [[99], [98]] ∧
    ([[99], [98]] : List Str) ≠ [[98], [99]] := by
  exact ⟨rfl, by decide⟩

/-- C8 amended: both `Document::remove` and `Document::swap_remove` remove
by swap (indexmap's `remove` is documented as equivalent to
`swap_remove`): when the removed key is followed by at least one entry the
final entry moves into its slot, and only removal of the final entry
leaves the others' order intact. -/
theorem c8_remove_swap_semantics (pre post : Document) (k : Str) (v : Value)
    (w : Str × Value) (hk : ∀ p ∈ pre, p.1 ≠ k) :
    (∀ d : Document, remove d k = swap_remove d k) ∧
    remove (pre ++ (k, v) :: (post ++ [w])) k = (some v, pre ++ w :: post) ∧
    remove (pre ++ [(k, v)]) k = (some v, pre) := by
  refine ⟨fun _ => rfl, ?_, ?_⟩
  · rw [remove, swap_remove, docFindIndex_append pre k v _ hk,
      docGet_append pre k v _ hk]
    unfold listSwapRemove
    have hlast : (pre ++ (k, v) :: (post ++ [w])).getLast? = some w := by
      rw [show pre ++ (k, v) :: (post ++ [w]) = (pre ++ (k, v) :: post) ++ [w] by simp]
      exact List.getLast?_concat _
    rw [hlast]
    show (some v, (List.set (pre ++ (k, v) :: (post ++ [w])) pre.length w).dropLast)
        = (some v, pre ++ w :: post)
    rw [set_append_cons]
    rw [show pre ++ w :: (post ++ [w]) = (pre ++ w :: post) ++ [w] by simp]
    rw [List.dropLast_concat]
  · rw [remove, swap_remove, docFindIndex_append pre k v [] hk,
      docGet_append pre k v [] hk]
    unfold listSwapRemove
    have hlast : (pre ++ [(k, v)]).getLast? = some (k, v) := List.getLast?_concat _
    rw [hlast]
    show (some v, (List.set (pre ++ [(k, v)]) pre.length (k, v)).dropLast) = (some v, pre)
    rw [set_append_cons, List.dropLast_concat]

/-- C8 witness: with one entry before and one after the removed key, the
trailing entry is swapped into the removed slot. -/
theorem c8_remove_swap_semantics_witness :
    (∀ p ∈ ([([97], Value.Int32 1)] : Document), p.1 ≠ [98]) ∧
    remove [([97], .Int32 1), ([98], .Int32 2), ([99], .Int32 3)] [98]
      = (some (.Int32 2), [([97], .Int32 1), ([99], .Int32 3)]) := by
  refine ⟨by decide, ?_⟩
  exact (c8_remove_swap_semantics [([97], .Int32 1)] [] [98] (.Int32 2)
    ([99], .Int32 3) (by decide)).2.1

/-! ### The generic serializer and the extended-document bridge (C9, C3) -/

/-- C9: finishing a struct or map in the generic serializer passes the
collected document through `from_extended_document`, so field shapes that
match an extended-document pattern come back as the exotic variant: two
`i32` fields `t`/`i` produce a `TimeStamp` (not a `Document` value), and a
single string field `$code` produces `JavaScriptCode`. -/
theorem c9_serializer_applies_extended_shapes (a b : Int) (s : Str)
    (ha1 : -(2 ^ 31) ≤ a) (ha2 : a < 2 ^ 31) (hb1 : -(2 ^ 31) ≤ b) (hb2 : b < 2 ^ 31) :
    to_bson (.structV [(keyT, .i32V a), (keyI, .i32V b)]) =
      .ok (.TimeStamp (wrapI64 (a * 2 ^ 32 + b))) ∧
    to_bson (.mapV [(.strV keyT, .i32V a), (.strV keyI, .i32V b)]) =
      .ok (.TimeStamp (wrapI64 (a * 2 ^ 32 + b))) ∧
    to_bson (.structV [(keyCode, .strV s)]) = .ok (.JavaScriptCode s) ∧
    to_bson (.mapV [(.strV keyCode, .strV s)]) = .ok (.JavaScriptCode s) :=
  ⟨rfl, rfl, rfl, rfl⟩

/-- C9 witness: the timestamp struct `{t: 1, i: 2}` serializes to
`TimeStamp(2^32 + 2)` and `{"$code": "x"}` to `JavaScriptCode("x")`. -/
theorem c9_serializer_applies_extended_shapes_witness :
    to_bson (.structV [(keyT, .i32V 1), (keyI, .i32V 2)]) =
      .ok (.TimeStamp (wrapI64 (1 * 2 ^ 32 + 2))) ∧
    wrapI64 (1 * 2 ^ 32 + 2) = 4294967298 ∧
    to_bson (.mapV [(.strV keyCode, .strV [120])]) = .ok (.JavaScriptCode [120]) := by
  refine ⟨?_, by decide, ?_⟩
  · exact (c9_serializer_applies_extended_shapes 1 2 [120]
      (by norm_num) (by norm_num) (by norm_num) (by norm_num)).1
  · exact (c9_serializer_applies_extended_shapes 1 2 [120]
      (by norm_num) (by norm_num) (by norm_num) (by norm_num)).2.2.2

/-! ### Hex codec and the extended-document round trip (C3) -/

theorem hexVal_hexDigit (n : Nat) (h : n < 16) : hexVal (hexDigit n) = some n := by
  rw [hexDigit]
  by_cases h10 : n < 10
  · rw [if_pos h10, hexVal,
      if_pos (by simp only [Bool.and_eq_true, decide_eq_true_eq]; omega)]
    congr 1
    omega
  · rw [if_neg h10, hexVal,
      if_neg (by simp only [Bool.and_eq_true, decide_eq_true_eq]; omega),
      if_pos (by simp only [Bool.and_eq_true, decide_eq_true_eq]; omega)]
    congr 1
    omega

theorem fromHex_toHex (bs : Bytes) (h : ∀ b ∈ bs, b < 256) :
    fromHex (toHex bs) = some bs := by
  induction bs with
  | nil => rfl
  | cons b t ih =>
    have hb : b < 256 := h b (List.mem_cons_self b t)
    rw [toHex]
    simp only [fromHex, hexVal_hexDigit (b / 16) (by omega),
      hexVal_hexDigit (b % 16) (by omega),
      ih (fun x hx => h x (List.mem_cons_of_mem b hx))]
    rw [show b / 16 * 16 + b % 16 = b by omega]

theorem toHex_length (bs : Bytes) : (toHex bs).length = 2 * bs.length := by
  induction bs with
  | nil => rfl
  | cons b t ih => simp [toHex, ih]; omega

theorem wrapI32_eq_self (x : Int) (h1 : -(2 ^ 31) ≤ x) (h2 : x < 2 ^ 31) :
    wrapI32 x = x := by
  rw [wrapI32, i32OfU32]
  split
  · omega
  · omega

theorem wrapI64_eq_self (x : Int) (h1 : -(2 ^ 63) ≤ x) (h2 : x < 2 ^ 63) :
    wrapI64 x = x := by
  rw [wrapI64, i64OfU64]
  split
  · omega
  · omega

theorem int_tdiv_nonneg_eq (a b : Int) (ha : 0 ≤ a) (hb : 0 ≤ b) :
    a.tdiv b = a / b := by
  obtain ⟨m, rfl⟩ := Int.eq_ofNat_of_zero_le ha
  obtain ⟨n, rfl⟩ := Int.eq_ofNat_of_zero_le hb
  rw [← Int.ofNat_tdiv]
  exact_mod_cast rfl

theorem int_tmod_nonneg_eq (a b : Int) (ha : 0 ≤ a) (hb : 0 ≤ b) :
    a.tmod b = a % b := by
  obtain ⟨m, rfl⟩ := Int.eq_ofNat_of_zero_le ha
  obtain ⟨n, rfl⟩ := Int.eq_ofNat_of_zero_le hb
  rfl

/-- The exotic variants, i.e. those `to_extended_document` accepts. -/
def isExotic : Value → Bool
  | .RegExp _ _ => true
  | .JavaScriptCode _ => true
  | .JavaScriptCodeWithScope _ _ => true
  | .TimeStamp _ => true
  | .Binary _ _ => true
  | .ObjectId _ => true
  | .UTCDatetime _ => true
  | .Symbol _ => true
  | _ => false

/-- The extra condition the extended-document round trip needs beyond
constructibility: a `TimeStamp`'s low 32 bits must not have the sign bit
set (`from_extended_document` sign-extends the `i` field). -/
def extRoundTripCond : Value → Bool
  | .TimeStamp v => decide (v % (2 ^ 32 : Int) < 2 ^ 31)
  | _ => true

/-- C3 counterexample: the claim fails for `TimeStamp(2^31)`: its extended
document is `{t: Int32(0), i: Int32(-2^31)}` and reconstruction
sign-extends `i`, yielding `TimeStamp(-2^31) ≠ TimeStamp(2^31)`. -/
theorem c3_timestamp_roundtrip_fails :
    (to_extended_document (.TimeStamp (2 ^ 31))).bind from_extended_document
      = some (.TimeStamp (-(2 ^ 31))) ∧
    (to_extended_document (.TimeStamp (2 ^ 31))).bind from_extended_document
      ≠ some (.TimeStamp (2 ^ 31)) := by
  constructor
  · rfl
  · rw [show (to_extended_document (.TimeStamp (2 ^ 31))).bind from_extended_document
        = some (.TimeStamp (-(2 ^ 31))) from rfl]
    intro h
    rw [Option.some.injEq, Value.TimeStamp.injEq] at h
    omega

/-- C3 amended: `from_extended_document ∘ to_extended_document` is the
identity on every well-formed exotic variant whose `TimeStamp` low half,
if any, stays below the sign bit (well-formedness already restricts
`UTCDatetime` to non-negative millisecond-aligned instants, which the
`$date` reconstruction path requires, and supplies the byte bounds the
hex codec round trip needs). -/
theorem c3_extended_document_roundtrip (v : Value) (hex : isExotic v = true)
    (hwf : wfValue v = true) (hcond : extRoundTripCond v = true) :
    (to_extended_document v).bind from_extended_document = some v := by
  cases v with
  | RegExp pat opt => rfl
  | JavaScriptCode code => rfl
  | JavaScriptCodeWithScope code scope => rfl
  | Symbol s => rfl
  | TimeStamp t =>
    rw [show (to_extended_document (.TimeStamp t)).bind from_extended_document =
        some (.TimeStamp (wrapI64 (wrapI32 (t / (2 ^ 32 : Int)) * 2 ^ 32 +
          wrapI32 (t % (2 ^ 32 : Int))))) from rfl]
    rw [wfValue] at hwf
    simp only [Bool.and_eq_true, decide_eq_true_eq] at hwf
    rw [extRoundTripCond, decide_eq_true_eq] at hcond
    obtain ⟨h1, h2⟩ := hwf
    rw [wrapI32_eq_self _ (by omega) (by omega),
      wrapI32_eq_self _ (by omega) hcond,
      show t / (2 ^ 32 : Int) * 2 ^ 32 + t % (2 ^ 32 : Int) = t by omega,
      wrapI64_eq_self t h1 h2]
  | Binary st data =>
    rw [show (to_extended_document (.Binary st data)).bind from_extended_document =
        (match fromHex (toHex data) with
         | some d => some (.Binary (u8OfI64 (st : Int)) d)
         | none => none) from rfl]
    rw [wfValue] at hwf
    simp only [Bool.and_eq_true, decide_eq_true_eq, List.all_eq_true] at hwf
    obtain ⟨⟨hst, hbytes⟩, hlen⟩ := hwf
    rw [fromHex_toHex data (fun b hb => by simpa using hbytes b hb)]
    rw [show u8OfI64 (st : Int) = st by rw [u8OfI64]; omega]
  | ObjectId id =>
    rw [show (to_extended_document (.ObjectId id)).bind from_extended_document =
        (match oidWithString (toHex id) with
         | some b => some (.ObjectId b)
         | none => none) from rfl]
    rw [wfValue] at hwf
    simp only [Bool.and_eq_true, decide_eq_true_eq, List.all_eq_true] at hwf
    obtain ⟨hlen, hbytes⟩ := hwf
    simp [oidWithString, fromHex_toHex id (fun b hb => by simpa using hbytes b hb), hlen]
  | UTCDatetime dt =>
    obtain ⟨sec, nsec⟩ := dt
    rw [show (to_extended_document (.UTCDatetime ⟨sec, nsec⟩)).bind from_extended_document =
        (match timestampOpt ((utcMillis ⟨sec, nsec⟩).tdiv 1000)
            (u32OfI64 ((utcMillis ⟨sec, nsec⟩).tmod 1000 * 1000000)) with
         | some t => some (.UTCDatetime t)
         | none => none) from rfl]
    rw [wfValue] at hwf
    simp only [Bool.and_eq_true, decide_eq_true_eq] at hwf
    obtain ⟨⟨⟨hs0, hsmax⟩, hn⟩, halign⟩ := hwf
    have hm : utcMillis ⟨sec, nsec⟩ = sec * 1000 + (nsec / 1000000 : Nat) := rfl
    have hq : (nsec / 1000000 : Nat) < 1000 := by omega
    have hmnn : 0 ≤ utcMillis ⟨sec, nsec⟩ := by rw [hm]; positivity
    rw [int_tdiv_nonneg_eq _ _ hmnn (by norm_num),
      int_tmod_nonneg_eq _ _ hmnn (by norm_num), hm]
    rw [show (sec * 1000 + ((nsec / 1000000 : Nat) : Int)) / 1000 = sec by omega]
    rw [show (sec * 1000 + ((nsec / 1000000 : Nat) : Int)) % 1000 =
        ((nsec / 1000000 : Nat) : Int) by omega]
    rw [show u32OfI64 (((nsec / 1000000 : Nat) : Int) * 1000000) = nsec by
      rw [u32OfI64]; omega]
    rw [timestampOpt, if_pos (by omega)]
  | Double bits => exact Bool.noConfusion hex
  | String s => exact Bool.noConfusion hex
  | Array xs => exact Bool.noConfusion hex
  | Document d => exact Bool.noConfusion hex
  | Boolean b => exact Bool.noConfusion hex
  | Null => exact Bool.noConfusion hex
  | Int32 x => exact Bool.noConfusion hex
  | Int64 x => exact Bool.noConfusion hex

/-- C3 witness: a `Binary` value with subtype 4, bytes `[1, 2, 255]`,
round-trips through the extended-document bridge. -/
theorem c3_extended_document_roundtrip_witness :
    isExotic (.Binary 4 [1, 2, 255]) = true ∧
    wfValue (.Binary 4 [1, 2, 255]) = true ∧
    extRoundTripCond (.Binary 4 [1, 2, 255]) = true ∧
    (to_extended_document (.Binary 4 [1, 2, 255])).bind from_extended_document
      = some (.Binary 4 [1, 2, 255]) := by
  refine ⟨by decide, by decide, by decide, ?_⟩
  exact c3_extended_document_roundtrip (.Binary 4 [1, 2, 255])
    (by decide) (by decide) (by decide)

/-! ### Round-trip infrastructure (C1) -/

theorem mkDec_succ_docLoop (m : Nat) : (mkDec (m + 1)).docLoop = docLoopF (mkDec m) := rfl

theorem mkDec_succ_arrLoop (m : Nat) : (mkDec (m + 1)).arrLoop = arrLoopF (mkDec m) := rfl

theorem mkDec_succ_bson (m : Nat) : (mkDec (m + 1)).bson = bsonF (mkDec m) := rfl

theorem element_tag_ne_zero (v : Value) : element_tag v ≠ 0 := by
  cases v <;> simp [element_tag]

theorem readI32_natToLE_small (n : Nat) (r : Bytes) (h : n < 2 ^ 31) :
    readI32 (natToLE 4 n ++ r) = .ok ((n : Int), r) := by
  rw [readI32_bytes _ _ (natToLE_length _ _), leToNat_natToLE,
    Nat.mod_eq_of_lt (by omega), i32OfU32, if_pos (by omega)]

theorem i64OfU64_emod (v : Int) (h1 : -(2 ^ 63) ≤ v) (h2 : v < 2 ^ 63) :
    i64OfU64 ((v % (2 ^ 64 : Int)).toNat) = v := by
  rw [i64OfU64]
  split
  · omega
  · omega

theorem wfDoc_mem (d : Document) (k : Str) (v : Value) (hd : wfDoc d = true)
    (hmem : (k, v) ∈ d) : wfKeyStr k = true ∧ wfValue v = true := by
  induction d with
  | nil => cases hmem
  | cons hd' t ih =>
    obtain ⟨k', v'⟩ := hd'
    rw [wfDoc] at hd
    simp only [Bool.and_eq_true] at hd
    rcases List.mem_cons.mp hmem with heq | hmem'
    · obtain ⟨hk, hv⟩ := Prod.mk.injEq .. ▸ heq
      injection heq with hk hv
      subst hk
      subst hv
      exact ⟨hd.1.1.1, hd.1.2⟩
    · exact ih hd.2 hmem'

theorem wfDoc_key_unique (acc : Document) (k : Str) (v : Value) (t : Document)
    (h : wfDoc (acc ++ (k, v) :: t) = true) : ∀ p ∈ acc, p.1 ≠ k := by
  induction acc with
  | nil => intro p hp; cases hp
  | cons hd t' ih =>
    obtain ⟨k', v'⟩ := hd
    rw [List.cons_append, wfDoc] at h
    simp only [Bool.and_eq_true, List.all_eq_true, decide_eq_true_eq] at h
    intro p hp
    rcases List.mem_cons.mp hp with heq | hp'
    · subst heq
      intro hcontra
      exact h.1.1.2 (k, v) (by simp) hcontra.symm
    · exact ih (by
        have := h.2
        simpa [wfDoc] using this) p hp'

theorem docInsert_append (acc : Document) (k : Str) (v : Value)
    (hk : ∀ p ∈ acc, p.1 ≠ k) : docInsert acc k v = acc ++ [(k, v)] := by
  induction acc with
  | nil => rfl
  | cons hd t ih =>
    obtain ⟨k', v'⟩ := hd
    rw [docInsert, if_neg (hk (k', v') (by simp)),
      ih (fun p hp => hk p (List.mem_cons_of_mem _ hp))]
    rfl

theorem sizeOf_mem_list (v : Value) (xs : List Value) (h : v ∈ xs) :
    sizeOf v < sizeOf xs := List.sizeOf_lt_of_mem h

theorem sizeOf_mem_doc (k : Str) (v : Value) (d : List (Str × Value))
    (h : (k, v) ∈ d) : sizeOf v < sizeOf d := by
  have h1 : sizeOf (k, v) < sizeOf d := List.sizeOf_lt_of_mem h
  have h2 : sizeOf v < sizeOf (k, v) := by
    simp only [Prod.mk.sizeOf_spec]
    omega
  omega

theorem encElems_cons (k : Str) (v : Value) (t : Document) :
    encElems ((k, v) :: t) =
      element_tag v :: (write_cstring k ++ payload v) ++ encElems t := rfl

theorem encArrElems_cons (i : Nat) (v : Value) (t : List Value) :
    encArrElems i (v :: t) =
      element_tag v :: (write_cstring (natToDec i) ++ payload v) ++ encArrElems (i + 1) t := rfl

theorem encElems_cons_length (k : Str) (v : Value) (t : Document) :
    (encElems ((k, v) :: t)).length =
      1 + (k.length + 1) + (payload v).length + (encElems t).length := by
  rw [encElems_cons, write_cstring]
  simp
  omega

theorem encArrElems_cons_length (i : Nat) (v : Value) (t : List Value) :
    (encArrElems i (v :: t)).length =
      1 + ((natToDec i).length + 1) + (payload v).length + (encArrElems (i + 1) t).length := by
  rw [encArrElems_cons, write_cstring]
  simp
  omega

/-- One step of the document element loop on a stream beginning with a
non-terminator tag and a well-formed key cstring. -/
theorem docLoopF_cons (p : Dec) (acc : Document) (tag : Nat) (k : Str) (rest : Bytes)
    (htag : tag ≠ 0) (hknul : ∀ c ∈ k, c ≠ 0) (hku : utf8Valid k = true) :
    docLoopF p acc (tag :: (k ++ 0 :: rest)) =
      (match p.bson tag rest with
       | .error e => .error e
       | .ok (val, r3) => p.docLoop (docInsert acc k val) r3) := by
  rw [show docLoopF p acc (tag :: (k ++ 0 :: rest)) =
      (if tag = 0 then .ok (acc, k ++ 0 :: rest)
       else
        match read_cstring (k ++ 0 :: rest) with
        | .error e => .error e
        | .ok (key, r2) =>
          match p.bson tag r2 with
          | .error e => .error e
          | .ok (val, r3) => p.docLoop (docInsert acc key val) r3) from rfl]
  rw [if_neg htag, read_cstring_append k rest hknul hku]

/-- One step of the array element loop when the key parses to the expected
index. -/
theorem arrLoopF_cons (p : Dec) (acc : List Value) (tag : Nat) (k : Str) (rest : Bytes)
    (htag : tag ≠ 0) (hknul : ∀ c ∈ k, c ≠ 0) (hku : utf8Valid k = true)
    (hparse : parseUsize k = some acc.length) :
    arrLoopF p acc (tag :: (k ++ 0 :: rest)) =
      (match p.bson tag rest with
       | .error e => .error e
       | .ok (val, r3) => p.arrLoop (acc ++ [val]) r3) := by
  rw [show arrLoopF p acc (tag :: (k ++ 0 :: rest)) =
      (if tag = 0 then .ok (acc, k ++ 0 :: rest)
       else
        match read_cstring (k ++ 0 :: rest) with
        | .error e => .error e
        | .ok (key, r2) =>
          match parseUsize key with
          | none => .error (.invalidArrayKey acc.length key)
          | some idx =>
            if idx ≠ acc.length then .error (.invalidArrayKey acc.length key)
            else
              match p.bson tag r2 with
              | .error e => .error e
              | .ok (val, r3) => p.arrLoop (acc ++ [val]) r3) from rfl]
  rw [if_neg htag, read_cstring_append k rest hknul hku]
  simp only [hparse]
  rw [if_neg (by simp)]

/-- The document element loop decodes an encoded element sequence back to
the elements appended to the accumulator, given a round-trip assumption
for each element value, enough fuel, and global key uniqueness. -/
theorem rt_docLoop_of (es : Document)
    (IH : ∀ (k : Str) (v : Value), (k, v) ∈ es → ∀ (m : Nat) (r : Bytes),
      wfValue v = true → (payload v).length ≤ m →
      bsonF (mkDec m) (element_tag v) (payload v ++ r) = .ok (v, r)) :
    ∀ (m : Nat) (acc : Document) (r : Bytes),
      wfDoc (acc ++ es) = true → (encElems es).length < m →
      docLoopF (mkDec m) acc (encElems es ++ 0 :: r) = .ok (acc ++ es, r) := by
  induction es with
  | nil =>
    intro m acc r hwf hfuel
    rw [show encElems [] = ([] : Bytes) from rfl, List.nil_append, List.append_nil]
    rfl
  | cons hd t ihes =>
    obtain ⟨k, v⟩ := hd
    intro m acc r hwf hfuel
    have hstream : encElems ((k, v) :: t) ++ 0 :: r =
        element_tag v :: (k ++ 0 :: (payload v ++ (encElems t ++ 0 :: r))) := by
      rw [encElems_cons, write_cstring]
      simp [List.append_assoc]
    rw [hstream]
    have hmem : (k, v) ∈ acc ++ (k, v) :: t := by simp
    obtain ⟨hkey, hval⟩ := wfDoc_mem _ k v hwf hmem
    simp only [wfKeyStr, Bool.and_eq_true, List.all_eq_true, decide_eq_true_eq] at hkey
    obtain ⟨hku, hknul⟩ := hkey
    have hins : docInsert acc k v = acc ++ [(k, v)] :=
      docInsert_append acc k v (wfDoc_key_unique acc k v t hwf)
    have hlen := encElems_cons_length k v t
    cases m with
    | zero => omega
    | succ m' =>
      rw [docLoopF_cons (mkDec (m' + 1)) acc (element_tag v) k _
        (element_tag_ne_zero v) hknul hku]
      rw [mkDec_succ_bson, mkDec_succ_docLoop]
      rw [IH k v (by simp) m' (encElems t ++ 0 :: r) hval (by omega)]
      show docLoopF (mkDec m') (docInsert acc k v) (encElems t ++ 0 :: r) = _
      rw [hins]
      rw [ihes (fun k' v' hm => IH k' v' (List.mem_cons_of_mem _ hm)) m'
        (acc ++ [(k, v)]) r (by simpa using hwf) (by omega)]
      simp

/-- The array element loop decodes an encoded element sequence (keys being
the decimal positions starting at the accumulator's length) back to the
elements appended to the accumulator. -/
theorem rt_arrLoop_of (xs : List Value)
    (IH : ∀ (v : Value), v ∈ xs → ∀ (m : Nat) (r : Bytes),
      wfValue v = true → (payload v).length ≤ m →
      bsonF (mkDec m) (element_tag v) (payload v ++ r) = .ok (v, r)) :
    ∀ (m : Nat) (acc : List Value) (r : Bytes),
      wfList xs = true → acc.length + xs.length ≤ 2 ^ 64 →
      (encArrElems acc.length xs).length < m →
      arrLoopF (mkDec m) acc (encArrElems acc.length xs ++ 0 :: r) = .ok (acc ++ xs, r) := by
  induction xs with
  | nil =>
    intro m acc r hwf hidx hfuel
    rw [show encArrElems acc.length [] = ([] : Bytes) from rfl, List.nil_append,
      List.append_nil]
    rfl
  | cons v t ihes =>
    intro m acc r hwf hidx hfuel
    have hstream : encArrElems acc.length (v :: t) ++ 0 :: r =
        element_tag v :: (natToDec acc.length ++ 0 ::
          (payload v ++ (encArrElems (acc.length + 1) t ++ 0 :: r))) := by
      rw [encArrElems_cons, write_cstring]
      simp [List.append_assoc]
    rw [hstream]
    rw [wfList] at hwf
    simp only [Bool.and_eq_true] at hwf
    obtain ⟨hval, hwt⟩ := hwf
    obtain ⟨hku, hknul⟩ := natToDec_key_ok acc.length
    have hlen := encArrElems_cons_length acc.length v t
    cases m with
    | zero => omega
    | succ m' =>
      rw [arrLoopF_cons (mkDec (m' + 1)) acc (element_tag v) (natToDec acc.length) _
        (element_tag_ne_zero v) hknul hku
        (parseUsize_natToDec acc.length (by simp at hidx; omega))]
      rw [mkDec_succ_bson, mkDec_succ_arrLoop]
      rw [IH v (by simp) m' (encArrElems (acc.length + 1) t ++ 0 :: r) hval (by omega)]
      show arrLoopF (mkDec m') (acc ++ [v]) (encArrElems (acc.length + 1) t ++ 0 :: r) = _
      have hacc1 : acc.length + 1 = (acc ++ [v]).length := by simp
      have hfuel' : (encArrElems (acc ++ [v]).length t).length < m' := by
        rw [← hacc1]; omega
      have hidx' : (acc ++ [v]).length + t.length ≤ 2 ^ 64 := by
        simp; simp at hidx; omega
      rw [hacc1]
      rw [ihes (fun v' hm => IH v' (List.mem_cons_of_mem _ hm)) m'
        (acc ++ [v]) r hwt hidx' hfuel']
      simp

/-- Core round trip: decoding an encoded element payload at its tag yields
the value back for any trailing stream, with fuel at least the payload
length; by strong induction on the value's size. -/
theorem rt_bson_aux (N : Nat) : ∀ (v : Value), sizeOf v ≤ N → wfValue v = true →
    ∀ (m : Nat) (r : Bytes), (payload v).length ≤ m →
    bsonF (mkDec m) (element_tag v) (payload v ++ r) = .ok (v, r) := by
  induction N using Nat.strong_induction_on with
  | _ N IH =>
  intro v hsize hwf m r hm
  cases v with
  | Double bits =>
    simp only [wfValue, decide_eq_true_eq] at hwf
    show (match readU64 (natToLE 8 bits ++ r) with
      | Except.error e => Except.error e
      | Except.ok (b, r2) => (Except.ok (.Double b, r2) : DRes Value)) = .ok (.Double bits, r)
    rw [readU64_natToLE bits r hwf]
  | String s =>
    simp only [wfValue, Bool.and_eq_true, decide_eq_true_eq] at hwf
    show (match read_string (write_string s ++ r) with
      | Except.error e => Except.error e
      | Except.ok (s2, r2) => (Except.ok (.String s2, r2) : DRes Value)) = .ok (.String s, r)
    rw [read_string_write_string s r hwf.1 hwf.2]
  | Array xs =>
    simp only [wfValue, Bool.and_eq_true, decide_eq_true_eq] at hwf
    have hplen : (payload (Value.Array xs)).length = (encArrElems 0 xs).length + 5 := by
      show (natToLE 4 (4 + (encArrElems 0 xs).length + 1) ++ encArrElems 0 xs ++ [0]).length = _
      simp [natToLE_length]
      omega
    have hstream : payload (Value.Array xs) ++ r =
        natToLE 4 (4 + (encArrElems 0 xs).length + 1) ++ (encArrElems 0 xs ++ 0 :: r) := by
      show (natToLE 4 (4 + (encArrElems 0 xs).length + 1) ++ encArrElems 0 xs ++ [0]) ++ r = _
      simp [List.append_assoc]
    show (match readI32 (payload (Value.Array xs) ++ r) with
      | Except.error e => Except.error e
      | Except.ok (_, r1) =>
        match (mkDec m).arrLoop [] r1 with
        | Except.error e => Except.error e
        | Except.ok (xs2, r2) => (Except.ok (.Array xs2, r2) : DRes Value)) = .ok (.Array xs, r)
    rw [hstream, readI32_bytes _ _ (natToLE_length _ _)]
    cases m with
    | zero => exact absurd hm (by omega)
    | succ m' =>
      show (match arrLoopF (mkDec m') [] (encArrElems ([] : List Value).length xs ++ 0 :: r) with
        | Except.error e => Except.error e
        | Except.ok (xs2, r2) => (Except.ok (.Array xs2, r2) : DRes Value)) = .ok (.Array xs, r)
      have elemIH : ∀ (w : Value), w ∈ xs → ∀ (m2 : Nat) (r2 : Bytes),
          wfValue w = true → (payload w).length ≤ m2 →
          bsonF (mkDec m2) (element_tag w) (payload w ++ r2) = .ok (w, r2) := by
        intro w hmem m2 r2 hww hm2
        have hs1 : sizeOf w < sizeOf xs := sizeOf_mem_list w xs hmem
        have hs2 : sizeOf xs < sizeOf (Value.Array xs) := by simp
        exact IH (sizeOf w) (by omega) w le_rfl hww m2 r2 hm2
      rw [rt_arrLoop_of xs elemIH m' [] r hwf.1 (by simpa using hwf.2)
        (by show (encArrElems 0 xs).length < m'; omega)]
      simp
  | Document d =>
    simp only [wfValue] at hwf
    have hplen : (payload (Value.Document d)).length = (encElems d).length + 5 := by
      show (natToLE 4 (4 + (encElems d).length + 1) ++ encElems d ++ [0]).length = _
      simp [natToLE_length]
      omega
    have hstream : payload (Value.Document d) ++ r =
        natToLE 4 (4 + (encElems d).length + 1) ++ (encElems d ++ 0 :: r) := by
      show (natToLE 4 (4 + (encElems d).length + 1) ++ encElems d ++ [0]) ++ r = _
      simp [List.append_assoc]
    show (match readI32 (payload (Value.Document d) ++ r) with
      | Except.error e => Except.error e
      | Except.ok (_, r1) =>
        match (mkDec m).docLoop [] r1 with
        | Except.error e => Except.error e
        | Except.ok (d2, r2) => (Except.ok (.Document d2, r2) : DRes Value)) = .ok (.Document d, r)
    rw [hstream, readI32_bytes _ _ (natToLE_length _ _)]
    cases m with
    | zero => exact absurd hm (by omega)
    | succ m' =>
      show (match docLoopF (mkDec m') [] (encElems d ++ 0 :: r) with
        | Except.error e => Except.error e
        | Except.ok (d2, r2) => (Except.ok (.Document d2, r2) : DRes Value)) = .ok (.Document d, r)
      have elemIH : ∀ (k : Str) (w : Value), (k, w) ∈ d → ∀ (m2 : Nat) (r2 : Bytes),
          wfValue w = true → (payload w).length ≤ m2 →
          bsonF (mkDec m2) (element_tag w) (payload w ++ r2) = .ok (w, r2) := by
        intro k w hmem m2 r2 hww hm2
        have hs1 : sizeOf w < sizeOf d := sizeOf_mem_doc k w d hmem
        have hs2 : sizeOf d < sizeOf (Value.Document d) := by simp
        exact IH (sizeOf w) (by omega) w le_rfl hww m2 r2 hm2
      rw [rt_docLoop_of d elemIH m' [] r (by simpa using hwf) (by omega)]
      simp
  | Boolean b => cases b <;> rfl
  | Null => rfl
  | RegExp pat opt =>
    simp only [wfValue, wfKeyStr, Bool.and_eq_true, List.all_eq_true,
      decide_eq_true_eq] at hwf
    obtain ⟨⟨hpu, hpn⟩, ⟨hou, hon⟩⟩ := hwf
    have hstream : payload (Value.RegExp pat opt) ++ r = pat ++ 0 :: (opt ++ 0 :: r) := by
      show ((pat ++ [0]) ++ (opt ++ [0])) ++ r = _
      simp [List.append_assoc]
    show (match read_cstring (payload (Value.RegExp pat opt) ++ r) with
      | Except.error e => Except.error e
      | Except.ok (p2, r1) =>
        match read_cstring r1 with
        | Except.error e => Except.error e
        | Except.ok (o2, r2) => (Except.ok (.RegExp p2 o2, r2) : DRes Value)) = .ok (.RegExp pat opt, r)
    rw [hstream, read_cstring_append pat _ hpn hpu]
    show (match read_cstring (opt ++ 0 :: r) with
      | Except.error e => Except.error e
      | Except.ok (o2, r2) => (Except.ok (.RegExp pat o2, r2) : DRes Value)) = .ok (.RegExp pat opt, r)
    rw [read_cstring_append opt _ hon hou]
  | JavaScriptCode code =>
    simp only [wfValue, Bool.and_eq_true, decide_eq_true_eq] at hwf
    show (match read_string (write_string code ++ r) with
      | Except.error e => Except.error e
      | Except.ok (s2, r2) => (Except.ok (.JavaScriptCode s2, r2) : DRes Value)) =
        .ok (.JavaScriptCode code, r)
    rw [read_string_write_string code r hwf.1 hwf.2]
  | JavaScriptCodeWithScope code scope =>
    simp only [wfValue, Bool.and_eq_true, decide_eq_true_eq] at hwf
    obtain ⟨⟨hcu, hcl⟩, hsc⟩ := hwf
    have hbuflen : (write_string code ++
        (natToLE 4 (4 + (encElems scope).length + 1) ++ encElems scope ++ [0])).length + 4 =
        code.length + (encElems scope).length + 14 := by
      simp only [write_string, List.length_append, natToLE_length, List.length_cons,
        List.length_nil]
      omega
    have hpay : payload (Value.JavaScriptCodeWithScope code scope) =
        natToLE 4 (List.length (write_string code ++
          (natToLE 4 (4 + (encElems scope).length + 1) ++ encElems scope ++ [0])) + 4) ++
          (write_string code ++
            (natToLE 4 (4 + (encElems scope).length + 1) ++ encElems scope ++ [0])) := rfl
    have hplen : (payload (Value.JavaScriptCodeWithScope code scope)).length =
        code.length + (encElems scope).length + 14 := by
      rw [hpay]
      simp only [write_string, List.length_append, natToLE_length, List.length_cons,
        List.length_nil]
      omega
    have hstream : payload (Value.JavaScriptCodeWithScope code scope) ++ r =
        natToLE 4 (code.length + (encElems scope).length + 14) ++
          (write_string code ++
            (natToLE 4 (4 + (encElems scope).length + 1) ++ (encElems scope ++ 0 :: r))) := by
      rw [hpay, hbuflen]
      simp [List.append_assoc]
    show (match readI32 (payload (Value.JavaScriptCodeWithScope code scope) ++ r) with
      | Except.error e => Except.error e
      | Except.ok (_, r1) =>
        match read_string r1 with
        | Except.error e => Except.error e
        | Except.ok (c2, r2) =>
          match readI32 r2 with
          | Except.error e => Except.error e
          | Except.ok (_, r3) =>
            match (mkDec m).docLoop [] r3 with
            | Except.error e => Except.error e
            | Except.ok (sc2, r4) => (Except.ok (.JavaScriptCodeWithScope c2 sc2, r4) : DRes Value)) =
        .ok (.JavaScriptCodeWithScope code scope, r)
    rw [hstream, readI32_bytes _ _ (natToLE_length _ _)]
    show (match read_string (write_string code ++
        (natToLE 4 (4 + (encElems scope).length + 1) ++ (encElems scope ++ 0 :: r))) with
      | Except.error e => Except.error e
      | Except.ok (c2, r2) =>
        match readI32 r2 with
        | Except.error e => Except.error e
        | Except.ok (_, r3) =>
          match (mkDec m).docLoop [] r3 with
          | Except.error e => Except.error e
          | Except.ok (sc2, r4) => (Except.ok (.JavaScriptCodeWithScope c2 sc2, r4) : DRes Value)) =
        .ok (.JavaScriptCodeWithScope code scope, r)
    rw [read_string_write_string code _ hcu hcl]
    show (match readI32 (natToLE 4 (4 + (encElems scope).length + 1) ++
        (encElems scope ++ 0 :: r)) with
      | Except.error e => Except.error e
      | Except.ok (_, r3) =>
        match (mkDec m).docLoop [] r3 with
        | Except.error e => Except.error e
        | Except.ok (sc2, r4) => (Except.ok (.JavaScriptCodeWithScope code sc2, r4) : DRes Value)) =
        .ok (.JavaScriptCodeWithScope code scope, r)
    rw [readI32_bytes _ _ (natToLE_length _ _)]
    cases m with
    | zero => exact absurd hm (by omega)
    | succ m' =>
      show (match docLoopF (mkDec m') [] (encElems scope ++ 0 :: r) with
        | Except.error e => Except.error e
        | Except.ok (sc2, r4) => (Except.ok (.JavaScriptCodeWithScope code sc2, r4) : DRes Value)) =
        .ok (.JavaScriptCodeWithScope code scope, r)
      have elemIH : ∀ (k : Str) (w : Value), (k, w) ∈ scope → ∀ (m2 : Nat) (r2 : Bytes),
          wfValue w = true → (payload w).length ≤ m2 →
          bsonF (mkDec m2) (element_tag w) (payload w ++ r2) = .ok (w, r2) := by
        intro k w hmem m2 r2 hww hm2
        have hs1 : sizeOf w < sizeOf scope := sizeOf_mem_doc k w scope hmem
        have hs2 : sizeOf scope < sizeOf (Value.JavaScriptCodeWithScope code scope) := by
          simp
        exact IH (sizeOf w) (by omega) w le_rfl hww m2 r2 hm2
      rw [rt_docLoop_of scope elemIH m' [] r (by simpa using hsc) (by omega)]
      simp
  | Int32 v =>
    simp only [wfValue, Bool.and_eq_true, decide_eq_true_eq] at hwf
    show (match readI32 (i32le v ++ r) with
      | Except.error e => Except.error e
      | Except.ok (v2, r2) => (Except.ok (.Int32 v2, r2) : DRes Value)) = .ok (.Int32 v, r)
    rw [readI32_i32le v r hwf.1 hwf.2]
  | Int64 v =>
    simp only [wfValue, Bool.and_eq_true, decide_eq_true_eq] at hwf
    show (match readI64 (i64le v ++ r) with
      | Except.error e => Except.error e
      | Except.ok (v2, r2) => (Except.ok (.Int64 v2, r2) : DRes Value)) = .ok (.Int64 v, r)
    rw [readI64_i64le v r hwf.1 hwf.2]
  | TimeStamp v =>
    simp only [wfValue, Bool.and_eq_true, decide_eq_true_eq] at hwf
    show (match readU64 (i64le v ++ r) with
      | Except.error e => Except.error e
      | Except.ok (u, r2) => (Except.ok (.TimeStamp (i64OfU64 u), r2) : DRes Value)) =
        .ok (.TimeStamp v, r)
    have hread : readU64 (i64le v ++ r) = .ok ((v % (2 ^ 64 : Int)).toNat, r) := by
      rw [i64le]
      exact readU64_natToLE _ r (by omega)
    rw [hread]
    show (Except.ok (.TimeStamp (i64OfU64 ((v % (2 ^ 64 : Int)).toNat)), r) : DRes Value) =
      .ok (.TimeStamp v, r)
    rw [i64OfU64_emod v hwf.1 hwf.2]
  | Binary subtype data =>
    simp only [wfValue, Bool.and_eq_true, List.all_eq_true, decide_eq_true_eq] at hwf
    obtain ⟨⟨hsub, hdata⟩, hblen⟩ := hwf
    have hstream : payload (Value.Binary subtype data) ++ r =
        natToLE 4 data.length ++ (subtype :: (data ++ r)) := by
      show (natToLE 4 data.length ++ subtype :: data) ++ r = _
      simp [List.append_assoc]
    show (match readI32 (payload (Value.Binary subtype data) ++ r) with
      | Except.error e => Except.error e
      | Except.ok (len, r1) =>
        match readU8 r1 with
        | Except.error e => Except.error e
        | Except.ok (st, r2) =>
          match takeToEnd (u64OfI32 len) r2 with
          | Except.error e => Except.error e
          | Except.ok (dat, r3) => (Except.ok (.Binary st dat, r3) : DRes Value)) =
        .ok (.Binary subtype data, r)
    rw [hstream, readI32_natToLE_small data.length _ (by omega)]
    show (match takeToEnd (u64OfI32 (data.length : Int)) (data ++ r) with
      | Except.error e => Except.error e
      | Except.ok (dat, r3) => (Except.ok (.Binary subtype dat, r3) : DRes Value)) =
        .ok (.Binary subtype data, r)
    have hu : u64OfI32 ((data.length : Nat) : Int) = data.length := by
      rw [u64OfI32, if_pos (by omega)]
      omega
    rw [hu, takeToEnd_append data.length data r rfl]
  | ObjectId id =>
    simp only [wfValue, Bool.and_eq_true, List.all_eq_true, decide_eq_true_eq] at hwf
    obtain ⟨hlen, hbytes⟩ := hwf
    show (match readExact 12 (id ++ r) with
      | Except.error e => Except.error e
      | Except.ok (i2, r2) => (Except.ok (.ObjectId i2, r2) : DRes Value)) = .ok (.ObjectId id, r)
    rw [show (12 : Nat) = id.length from hlen.symm, readExact_append]
  | UTCDatetime dt =>
    simp only [wfValue, Bool.and_eq_true, decide_eq_true_eq] at hwf
    obtain ⟨⟨⟨hs0, hs50⟩, hn9⟩, hnm⟩ := hwf
    have hms : utcMillis dt = dt.sec * 1000 + (dt.nsec / 1000000 : Nat) := rfl
    have hq : (dt.nsec / 1000000 : Nat) < 1000 := by omega
    have h1 : -(2 ^ 63) ≤ utcMillis dt := by rw [hms]; omega
    have h2 : utcMillis dt < 2 ^ 63 := by rw [hms]; omega
    have hnn : (0 : Int) ≤ utcMillis dt := by rw [hms]; omega
    show (match readI64 (i64le (utcMillis dt) ++ r) with
      | Except.error e => Except.error e
      | Except.ok (time, r2) =>
        match timestampOpt (time.tdiv 1000)
            ((if time.tmod 1000 < 0 then 1000 - time.tmod 1000 else time.tmod 1000).toNat *
              1000000) with
        | none => Except.error (DecodeError.invalidTimestamp time)
        | some t => (Except.ok (.UTCDatetime t, r2) : DRes Value)) = .ok (.UTCDatetime dt, r)
    rw [readI64_i64le (utcMillis dt) r h1 h2]
    show (match timestampOpt ((utcMillis dt).tdiv 1000)
        ((if (utcMillis dt).tmod 1000 < 0 then 1000 - (utcMillis dt).tmod 1000
          else (utcMillis dt).tmod 1000).toNat * 1000000) with
      | none => Except.error (DecodeError.invalidTimestamp (utcMillis dt))
      | some t => (Except.ok (.UTCDatetime t, r) : DRes Value)) = .ok (.UTCDatetime dt, r)
    rw [int_tmod_nonneg_eq _ _ hnn (by omega), int_tdiv_nonneg_eq _ _ hnn (by omega)]
    have hmod : utcMillis dt % 1000 = ((dt.nsec / 1000000 : Nat) : Int) := by
      rw [hms]; omega
    have hdiv : utcMillis dt / 1000 = dt.sec := by
      rw [hms]; omega
    rw [hmod, hdiv, if_neg (by omega)]
    have htn : ((dt.nsec / 1000000 : Nat) : Int).toNat * 1000000 = dt.nsec := by omega
    rw [htn, timestampOpt, if_pos (by omega)]
  | Symbol s =>
    simp only [wfValue, Bool.and_eq_true, decide_eq_true_eq] at hwf
    show (match read_string (write_string s ++ r) with
      | Except.error e => Except.error e
      | Except.ok (s2, r2) => (Except.ok (.Symbol s2, r2) : DRes Value)) = .ok (.Symbol s, r)
    rw [read_string_write_string s r hwf.1 hwf.2]

/-- C1 counterexample: the encode/decode round trip fails on a
constructible document holding the instant -0.001 s (second -1,
nanosecond 999000000): the encoder writes -1 millisecond, and the
decoder's negative-remainder branch (`1000 - temp_msec`) reconstructs
second 0 with nanosecond field 1001000000, a different instant. -/
theorem c1_roundtrip_fails_negative_datetime :
    decode_document (encode_document [([97], .UTCDatetime ⟨-1, 999000000⟩)]) =
      .ok ([([97], .UTCDatetime ⟨0, 1001000000⟩)], []) ∧
    ([([97], Value.UTCDatetime ⟨0, 1001000000⟩)] : Document) ≠
      [([97], .UTCDatetime ⟨-1, 999000000⟩)] := by
  constructor
  · rfl
  · intro h
    rw [List.cons.injEq, Prod.mk.injEq, Value.UTCDatetime.injEq,
      DateTimeUtc.mk.injEq] at h
    omega

/-- C1 (amended): for every well-formed document — keys null-free valid
UTF-8 and unique, strings within the 16 MiB bound, numeric payloads in
machine range, datetimes non-negative millisecond-aligned instants —
`decode_document` inverts `encode_document`, returning the same document
(same entries in the same order) and consuming the whole stream. The
original claim over all constructible documents fails for negative
datetimes (see the counterexample). -/
theorem c1_encode_decode_roundtrip (d : Document) (h : wfDoc d = true) :
    decode_document (encode_document d) = .ok (d, []) := by
  have hstream : encode_document d =
      natToLE 4 (4 + (encElems d).length + 1) ++ (encElems d ++ 0 :: ([] : Bytes)) := by
    show (natToLE 4 (4 + (encElems d).length + 1) ++ encElems d ++ [0]) = _
    simp [List.append_assoc]
  have hlen : (encode_document d).length = (encElems d).length + 5 := by
    rw [hstream]
    simp [natToLE_length]
    omega
  rw [decode_document, hlen, hstream, readI32_bytes _ _ (natToLE_length _ _)]
  show docLoopF (mkDec ((encElems d).length + 5 + 1)) [] (encElems d ++ 0 :: ([] : Bytes)) =
    .ok (d, [])
  have IH : ∀ (k : Str) (v : Value), (k, v) ∈ d → ∀ (m : Nat) (r : Bytes),
      wfValue v = true → (payload v).length ≤ m →
      bsonF (mkDec m) (element_tag v) (payload v ++ r) = .ok (v, r) :=
    fun _ v _ m r hv hm => rt_bson_aux (sizeOf v) v le_rfl hv m r hm
  have hrt := rt_docLoop_of d IH ((encElems d).length + 5 + 1) [] []
    (by simpa using h) (by omega)
  simpa using hrt

/-- C1 witness: the spec's example document `{"aa": "bb", "cc": [1, 2, 3, 4]}`
round-trips byte-exactly. -/
theorem c1_encode_decode_roundtrip_witness :
    wfDoc [([97, 97], Value.String [98, 98]),
      ([99, 99], .Array [.Int32 1, .Int32 2, .Int32 3, .Int32 4])] = true ∧
    decode_document (encode_document [([97, 97], Value.String [98, 98]),
      ([99, 99], .Array [.Int32 1, .Int32 2, .Int32 3, .Int32 4])]) =
      .ok ([([97, 97], Value.String [98, 98]),
        ([99, 99], .Array [.Int32 1, .Int32 2, .Int32 3, .Int32 4])], []) :=
  ⟨by decide, c1_encode_decode_roundtrip
    [([97, 97], Value.String [98, 98]),
      ([99, 99], .Array [.Int32 1, .Int32 2, .Int32 3, .Int32 4])] (by decide)⟩

/-! ### Truncation infrastructure (C4) -/

theorem proper_prefix_length_lt (p l : Bytes) (hpre : p <+: l) (hne : p ≠ l) :
    p.length < l.length := by
  rcases Nat.lt_or_ge p.length l.length with h | h
  · exact h
  · exact absurd (List.IsPrefix.eq_of_length hpre (le_antisymm hpre.length_le h)) hne

/-- A prefix of `a ++ b` is either a proper prefix of `a` or extends `a`
by a prefix of `b`. -/
theorem prefix_split (a b q : Bytes) (h : q <+: a ++ b) :
    (q <+: a ∧ q ≠ a) ∨ ∃ q2, q = a ++ q2 ∧ q2 <+: b := by
  by_cases hlen : q.length < a.length
  · left
    refine ⟨List.prefix_of_prefix_length_le h (List.prefix_append a b) (by omega), ?_⟩
    intro hq
    subst hq
    omega
  · right
    push_neg at hlen
    have haq : a <+: q := List.prefix_of_prefix_length_le (List.prefix_append a b) h hlen
    obtain ⟨q2, hq2⟩ := haq
    refine ⟨q2, hq2.symm, ?_⟩
    obtain ⟨s, hs⟩ := h
    have hx : a ++ (q2 ++ s) = a ++ b := by
      rw [← hs, ← hq2]
      simp [List.append_assoc]
    exact ⟨s, List.append_cancel_left hx⟩

/-- A prefix of a null-terminated key block either stays inside the
null-free key or contains its terminator. -/
theorem prefix_cstring_split (k : Str) (X q : Bytes) (h : q <+: k ++ 0 :: X) :
    q <+: k ∨ ∃ q2, q = k ++ 0 :: q2 ∧ q2 <+: X := by
  rcases prefix_split (k ++ [0]) X q (by simpa [List.append_assoc] using h) with
    ⟨hq, hne⟩ | ⟨q2, rfl, hq2⟩
  · rcases prefix_split k [0] q hq with ⟨hq1, _⟩ | ⟨q2, rfl, hq2⟩
    · exact Or.inl hq1
    · cases q2 with
      | nil => exact Or.inl (by simp)
      | cons c q3 =>
        obtain ⟨rfl, h3⟩ := List.cons_prefix_cons.mp hq2
        rw [List.prefix_nil] at h3
        subst h3
        exact Or.inr ⟨[], by simp, List.nil_prefix⟩
  · exact Or.inr ⟨q2, by simp [List.append_assoc], hq2⟩

theorem docLoopF_key_err (p : Dec) (acc : Document) (tag : Nat) (q1 : Bytes)
    (e : DecodeError) (htag : tag ≠ 0) (herr : read_cstring q1 = .error e) :
    docLoopF p acc (tag :: q1) = .error e := by
  rw [show docLoopF p acc (tag :: q1) =
      (if tag = 0 then .ok (acc, q1)
       else
        match read_cstring q1 with
        | .error e => .error e
        | .ok (key, r2) =>
          match p.bson tag r2 with
          | .error e => .error e
          | .ok (val, r3) => p.docLoop (docInsert acc key val) r3) from rfl]
  rw [if_neg htag, herr]

theorem arrLoopF_key_err (p : Dec) (acc : List Value) (tag : Nat) (q1 : Bytes)
    (e : DecodeError) (htag : tag ≠ 0) (herr : read_cstring q1 = .error e) :
    arrLoopF p acc (tag :: q1) = .error e := by
  rw [show arrLoopF p acc (tag :: q1) =
      (if tag = 0 then .ok (acc, q1)
       else
        match read_cstring q1 with
        | .error e => .error e
        | .ok (key, r2) =>
          match parseUsize key with
          | none => .error (.invalidArrayKey acc.length key)
          | some idx =>
            if idx ≠ acc.length then .error (.invalidArrayKey acc.length key)
            else
              match p.bson tag r2 with
              | .error e => .error e
              | .ok (val, r3) => p.arrLoop (acc ++ [val]) r3) from rfl]
  rw [if_neg htag, herr]

/-- Truncation inside the document element loop: on any proper prefix of
an encoded element sequence (terminator included), the loop reports the
end-of-stream I/O failure — given, per element, the round trip on full
payloads and the truncation dichotomy on partial ones. -/
theorem tr_docLoop_of (es : Document)
    (RT : ∀ (k : Str) (v : Value), (k, v) ∈ es → ∀ (m : Nat) (r : Bytes),
      wfValue v = true → (payload v).length ≤ m →
      bsonF (mkDec m) (element_tag v) (payload v ++ r) = .ok (v, r))
    (TR : ∀ (k : Str) (v : Value), (k, v) ∈ es → ∀ (m : Nat) (p : Bytes),
      wfValue v = true → p <+: payload v → p ≠ payload v → p.length < m →
      bsonF (mkDec m) (element_tag v) p = .error .ioError ∨
      ∃ w, bsonF (mkDec m) (element_tag v) p = .ok (w, [])) :
    ∀ (m : Nat) (acc : Document) (q : Bytes), wfDoc es = true →
      q <+: encElems es ++ [0] → q ≠ encElems es ++ [0] → q.length < m →
      docLoopF (mkDec m) acc q = .error .ioError := by
  induction es with
  | nil =>
    intro m acc q _ hpre hne _
    have hq : q = [] := by
      rw [show encElems [] ++ [0] = [0] from rfl] at hpre hne
      cases q with
      | nil => rfl
      | cons c q1 =>
        obtain ⟨rfl, h1⟩ := List.cons_prefix_cons.mp hpre
        rw [List.prefix_nil] at h1
        subst h1
        exact absurd rfl hne
    subst hq
    rfl
  | cons hd t ihes =>
    obtain ⟨k, v⟩ := hd
    intro m acc q hwf hpre hne hm
    have hkv : wfKeyStr k = true ∧ wfValue v = true ∧ wfDoc t = true := by
      rw [wfDoc] at hwf
      simp only [Bool.and_eq_true] at hwf
      exact ⟨hwf.1.1.1, hwf.1.2, hwf.2⟩
    obtain ⟨hkk, hv1, hwt⟩ := hkv
    have hkey : utf8Valid k = true ∧ ∀ c ∈ k, c ≠ 0 := by
      rw [wfKeyStr] at hkk
      simp only [Bool.and_eq_true, List.all_eq_true, decide_eq_true_eq] at hkk
      exact hkk
    obtain ⟨hku, hknul⟩ := hkey
    have hS : encElems ((k, v) :: t) ++ [0] =
        element_tag v :: (k ++ 0 :: (payload v ++ (encElems t ++ [0]))) := by
      rw [encElems_cons, write_cstring]
      simp [List.append_assoc]
    rw [hS] at hpre hne
    cases q with
    | nil => rfl
    | cons c q1 =>
      obtain ⟨rfl, hpre1⟩ := List.cons_prefix_cons.mp hpre
      have hne1 : q1 ≠ k ++ 0 :: (payload v ++ (encElems t ++ [0])) := by
        intro hq1
        exact hne (by rw [hq1])
      rcases prefix_cstring_split k _ q1 hpre1 with hq1k | ⟨q2, rfl, hpre2⟩
      · exact docLoopF_key_err (mkDec m) acc (element_tag v) q1 .ioError
          (element_tag_ne_zero v)
          (read_cstring_noTerm q1 (fun c hc => hknul c (hq1k.subset hc)))
      · have hne2 : q2 ≠ payload v ++ (encElems t ++ [0]) := by
          intro hq2
          exact hne1 (by rw [hq2])
        cases m with
        | zero => exact absurd hm (by omega)
        | succ m' =>
          rw [docLoopF_cons (mkDec (m' + 1)) acc (element_tag v) k q2
            (element_tag_ne_zero v) hknul hku]
          rw [mkDec_succ_bson, mkDec_succ_docLoop]
          have hql : (element_tag v :: (k ++ 0 :: q2)).length =
              k.length + 2 + q2.length := by
            simp
            omega
          rcases prefix_split (payload v) (encElems t ++ [0]) q2 hpre2 with
            ⟨hq2p, hq2ne⟩ | ⟨q3, rfl, hpre3⟩
          · rcases TR k v (by simp) m' q2 hv1 hq2p hq2ne (by omega) with herr | ⟨w, hok⟩
            · rw [herr]
            · rw [hok]
              show docLoopF (mkDec m') (docInsert acc k w) [] = .error .ioError
              rfl
          · have hq3l : (payload v ++ q3).length = (payload v).length + q3.length := by
              simp
            rw [RT k v (by simp) m' q3 hv1 (by omega)]
            show docLoopF (mkDec m') (docInsert acc k v) q3 = .error .ioError
            have hne3 : q3 ≠ encElems t ++ [0] := by
              intro hq3
              exact hne2 (by rw [hq3])
            exact ihes (fun k' v' hm' => RT k' v' (List.mem_cons_of_mem _ hm'))
              (fun k' v' hm' => TR k' v' (List.mem_cons_of_mem _ hm'))
              m' (docInsert acc k v) q3 hwt hpre3 hne3 (by omega)

/-- Truncation inside the array element loop: as for documents; the index
keys of the encoded sequence parse back to the running position, so
truncation surfaces as the I/O failure, never as an index mismatch. -/
theorem tr_arrLoop_of (xs : List Value)
    (RT : ∀ (v : Value), v ∈ xs → ∀ (m : Nat) (r : Bytes),
      wfValue v = true → (payload v).length ≤ m →
      bsonF (mkDec m) (element_tag v) (payload v ++ r) = .ok (v, r))
    (TR : ∀ (v : Value), v ∈ xs → ∀ (m : Nat) (p : Bytes),
      wfValue v = true → p <+: payload v → p ≠ payload v → p.length < m →
      bsonF (mkDec m) (element_tag v) p = .error .ioError ∨
      ∃ w, bsonF (mkDec m) (element_tag v) p = .ok (w, [])) :
    ∀ (m : Nat) (acc : List Value) (q : Bytes), wfList xs = true →
      acc.length + xs.length ≤ 2 ^ 64 →
      q <+: encArrElems acc.length xs ++ [0] → q ≠ encArrElems acc.length xs ++ [0] →
      q.length < m → arrLoopF (mkDec m) acc q = .error .ioError := by
  induction xs with
  | nil =>
    intro m acc q _ _ hpre hne _
    have hq : q = [] := by
      rw [show encArrElems acc.length [] ++ [0] = [0] from rfl] at hpre hne
      cases q with
      | nil => rfl
      | cons c q1 =>
        obtain ⟨rfl, h1⟩ := List.cons_prefix_cons.mp hpre
        rw [List.prefix_nil] at h1
        subst h1
        exact absurd rfl hne
    subst hq
    rfl
  | cons v t ihes =>
    intro m acc q hwf hidx hpre hne hm
    rw [wfList] at hwf
    simp only [Bool.and_eq_true] at hwf
    obtain ⟨hv1, hwt⟩ := hwf
    obtain ⟨hku, hknul⟩ := natToDec_key_ok acc.length
    have hS : encArrElems acc.length (v :: t) ++ [0] =
        element_tag v :: (natToDec acc.length ++ 0 ::
          (payload v ++ (encArrElems (acc.length + 1) t ++ [0]))) := by
      rw [encArrElems_cons, write_cstring]
      simp [List.append_assoc]
    rw [hS] at hpre hne
    cases q with
    | nil => rfl
    | cons c q1 =>
      obtain ⟨rfl, hpre1⟩ := List.cons_prefix_cons.mp hpre
      have hne1 : q1 ≠ natToDec acc.length ++ 0 ::
          (payload v ++ (encArrElems (acc.length + 1) t ++ [0])) := by
        intro hq1
        exact hne (by rw [hq1])
      rcases prefix_cstring_split (natToDec acc.length) _ q1 hpre1 with
        hq1k | ⟨q2, rfl, hpre2⟩
      · exact arrLoopF_key_err (mkDec m) acc (element_tag v) q1 .ioError
          (element_tag_ne_zero v)
          (read_cstring_noTerm q1 (fun c hc => hknul c (hq1k.subset hc)))
      · have hne2 : q2 ≠ payload v ++ (encArrElems (acc.length + 1) t ++ [0]) := by
          intro hq2
          exact hne1 (by rw [hq2])
        cases m with
        | zero => exact absurd hm (by omega)
        | succ m' =>
          rw [arrLoopF_cons (mkDec (m' + 1)) acc (element_tag v) (natToDec acc.length) q2
            (element_tag_ne_zero v) hknul hku
            (parseUsize_natToDec acc.length (by simp at hidx; omega))]
          rw [mkDec_succ_bson, mkDec_succ_arrLoop]
          have hql : (element_tag v :: (natToDec acc.length ++ 0 :: q2)).length =
              (natToDec acc.length).length + 2 + q2.length := by
            simp
            omega
          rcases prefix_split (payload v) (encArrElems (acc.length + 1) t ++ [0]) q2 hpre2 with
            ⟨hq2p, hq2ne⟩ | ⟨q3, rfl, hpre3⟩
          · rcases TR v (by simp) m' q2 hv1 hq2p hq2ne (by omega) with herr | ⟨w, hok⟩
            · rw [herr]
            · rw [hok]
              show arrLoopF (mkDec m') (acc ++ [w]) [] = .error .ioError
              rfl
          · have hq3l : (payload v ++ q3).length = (payload v).length + q3.length := by
              simp
            rw [RT v (by simp) m' q3 hv1 (by omega)]
            show arrLoopF (mkDec m') (acc ++ [v]) q3 = .error .ioError
            have hne3 : q3 ≠ encArrElems (acc.length + 1) t ++ [0] := by
              intro hq3
              exact hne2 (by rw [hq3])
            have hacc1 : acc.length + 1 = (acc ++ [v]).length := by simp
            rw [hacc1] at hpre3 hne3
            exact ihes (fun v' hm' => RT v' (List.mem_cons_of_mem _ hm'))
              (fun v' hm' => TR v' (List.mem_cons_of_mem _ hm'))
              m' (acc ++ [v]) q3 hwt (by simp; simp at hidx; omega) hpre3 hne3 (by omega)

/-- Truncation dichotomy for a single element payload: on a proper prefix
the decoder either reports the end-of-stream I/O failure or (only via a
`Binary` payload, whose `take(len).read_to_end` never fails) succeeds
having consumed the whole remaining stream — it never succeeds with bytes
left over. -/
theorem tr_bson_aux (N : Nat) : ∀ (v : Value), sizeOf v ≤ N → wfValue v = true →
    ∀ (m : Nat) (p : Bytes), p <+: payload v → p ≠ payload v → p.length < m →
    bsonF (mkDec m) (element_tag v) p = .error .ioError ∨
    ∃ w, bsonF (mkDec m) (element_tag v) p = .ok (w, []) := by
  induction N using Nat.strong_induction_on with
  | _ N IH =>
  intro v hsize hwf m p hpre hne hm
  cases v with
  | Double bits =>
    have hlt : p.length < 8 := by
      have hl := proper_prefix_length_lt p _ hpre hne
      simpa [natToLE_length] using hl
    refine Or.inl ?_
    show (match readU64 p with
      | Except.error e => Except.error e
      | Except.ok (b, r2) => (Except.ok (.Double b, r2) : DRes Value)) = .error .ioError
    rw [readU64_short p hlt]
  | String s =>
    simp only [wfValue, Bool.and_eq_true, decide_eq_true_eq] at hwf
    refine Or.inl ?_
    show (match read_string p with
      | Except.error e => Except.error e
      | Except.ok (s2, r2) => (Except.ok (.String s2, r2) : DRes Value)) = .error .ioError
    rw [read_string_trunc s p hwf.2 hpre hne]
  | Array xs =>
    simp only [wfValue, Bool.and_eq_true, decide_eq_true_eq] at hwf
    have hshape : payload (Value.Array xs) =
        natToLE 4 (4 + (encArrElems 0 xs).length + 1) ++ (encArrElems 0 xs ++ [0]) := by
      show (natToLE 4 (4 + (encArrElems 0 xs).length + 1) ++ encArrElems 0 xs ++ [0]) = _
      simp [List.append_assoc]
    rw [hshape] at hpre hne
    rcases prefix_split _ _ p hpre with ⟨hp4, hp4ne⟩ | ⟨p1, rfl, hp1⟩
    · have hlt : p.length < 4 := by
        have hl := proper_prefix_length_lt p _ hp4 hp4ne
        simpa [natToLE_length] using hl
      refine Or.inl ?_
      show (match readI32 p with
        | Except.error e => Except.error e
        | Except.ok (_, r1) =>
          match (mkDec m).arrLoop [] r1 with
          | Except.error e => Except.error e
          | Except.ok (xs2, r2) => (Except.ok (.Array xs2, r2) : DRes Value)) =
          .error .ioError
      rw [readI32_short p hlt]
    · have hne1 : p1 ≠ encArrElems 0 xs ++ [0] := by
        intro h1
        exact hne (by rw [h1])
      cases m with
      | zero => exact absurd hm (by omega)
      | succ m' =>
        refine Or.inl ?_
        show (match readI32 (natToLE 4 (4 + (encArrElems 0 xs).length + 1) ++ p1) with
          | Except.error e => Except.error e
          | Except.ok (_, r1) =>
            match arrLoopF (mkDec m') [] r1 with
            | Except.error e => Except.error e
            | Except.ok (xs2, r2) => (Except.ok (.Array xs2, r2) : DRes Value)) =
            .error .ioError
        rw [readI32_bytes _ _ (natToLE_length _ _)]
        show (match arrLoopF (mkDec m') [] p1 with
          | Except.error e => Except.error e
          | Except.ok (xs2, r2) => (Except.ok (.Array xs2, r2) : DRes Value)) =
          .error .ioError
        have hmp : p1.length < m' := by
          have hL : (natToLE 4 (4 + (encArrElems 0 xs).length + 1) ++ p1).length =
              4 + p1.length := by
            simp [natToLE_length]
          omega
        have RT : ∀ (w : Value), w ∈ xs → ∀ (m2 : Nat) (r2 : Bytes),
            wfValue w = true → (payload w).length ≤ m2 →
            bsonF (mkDec m2) (element_tag w) (payload w ++ r2) = .ok (w, r2) :=
          fun w _ m2 r2 hw hm2 => rt_bson_aux (sizeOf w) w le_rfl hw m2 r2 hm2
        have TR : ∀ (w : Value), w ∈ xs → ∀ (m2 : Nat) (p2 : Bytes),
            wfValue w = true → p2 <+: payload w → p2 ≠ payload w → p2.length < m2 →
            bsonF (mkDec m2) (element_tag w) p2 = .error .ioError ∨
            ∃ w2, bsonF (mkDec m2) (element_tag w) p2 = .ok (w2, []) := by
          intro w hmem m2 p2 hw hp2 hp2ne hm2
          have hs1 : sizeOf w < sizeOf xs := sizeOf_mem_list w xs hmem
          have hs2 : sizeOf xs < sizeOf (Value.Array xs) := by simp
          exact IH (sizeOf w) (by omega) w le_rfl hw m2 p2 hp2 hp2ne hm2
        rw [tr_arrLoop_of xs RT TR m' [] p1 hwf.1 (by simpa using hwf.2) hp1 hne1 hmp]
  | Document d =>
    simp only [wfValue] at hwf
    have hshape : payload (Value.Document d) =
        natToLE 4 (4 + (encElems d).length + 1) ++ (encElems d ++ [0]) := by
      show (natToLE 4 (4 + (encElems d).length + 1) ++ encElems d ++ [0]) = _
      simp [List.append_assoc]
    rw [hshape] at hpre hne
    rcases prefix_split _ _ p hpre with ⟨hp4, hp4ne⟩ | ⟨p1, rfl, hp1⟩
    · have hlt : p.length < 4 := by
        have hl := proper_prefix_length_lt p _ hp4 hp4ne
        simpa [natToLE_length] using hl
      refine Or.inl ?_
      show (match readI32 p with
        | Except.error e => Except.error e
        | Except.ok (_, r1) =>
          match (mkDec m).docLoop [] r1 with
          | Except.error e => Except.error e
          | Except.ok (d2, r2) => (Except.ok (.Document d2, r2) : DRes Value)) =
          .error .ioError
      rw [readI32_short p hlt]
    · have hne1 : p1 ≠ encElems d ++ [0] := by
        intro h1
        exact hne (by rw [h1])
      cases m with
      | zero => exact absurd hm (by omega)
      | succ m' =>
        refine Or.inl ?_
        show (match readI32 (natToLE 4 (4 + (encElems d).length + 1) ++ p1) with
          | Except.error e => Except.error e
          | Except.ok (_, r1) =>
            match docLoopF (mkDec m') [] r1 with
            | Except.error e => Except.error e
            | Except.ok (d2, r2) => (Except.ok (.Document d2, r2) : DRes Value)) =
            .error .ioError
        rw [readI32_bytes _ _ (natToLE_length _ _)]
        show (match docLoopF (mkDec m') [] p1 with
          | Except.error e => Except.error e
          | Except.ok (d2, r2) => (Except.ok (.Document d2, r2) : DRes Value)) =
          .error .ioError
        have hmp : p1.length < m' := by
          have hL : (natToLE 4 (4 + (encElems d).length + 1) ++ p1).length =
              4 + p1.length := by
            simp [natToLE_length]
          omega
        have RT : ∀ (k : Str) (w : Value), (k, w) ∈ d → ∀ (m2 : Nat) (r2 : Bytes),
            wfValue w = true → (payload w).length ≤ m2 →
            bsonF (mkDec m2) (element_tag w) (payload w ++ r2) = .ok (w, r2) :=
          fun _ w _ m2 r2 hw hm2 => rt_bson_aux (sizeOf w) w le_rfl hw m2 r2 hm2
        have TR : ∀ (k : Str) (w : Value), (k, w) ∈ d → ∀ (m2 : Nat) (p2 : Bytes),
            wfValue w = true → p2 <+: payload w → p2 ≠ payload w → p2.length < m2 →
            bsonF (mkDec m2) (element_tag w) p2 = .error .ioError ∨
            ∃ w2, bsonF (mkDec m2) (element_tag w) p2 = .ok (w2, []) := by
          intro k w hmem m2 p2 hw hp2 hp2ne hm2
          have hs1 : sizeOf w < sizeOf d := sizeOf_mem_doc k w d hmem
          have hs2 : sizeOf d < sizeOf (Value.Document d) := by simp
          exact IH (sizeOf w) (by omega) w le_rfl hw m2 p2 hp2 hp2ne hm2
        rw [tr_docLoop_of d RT TR m' [] p1 hwf hp1 hne1 hmp]
  | Boolean b =>
    have hp : p = [] := by
      have hl := proper_prefix_length_lt p _ hpre hne
      have hlen : (payload (Value.Boolean b)).length = 1 := by cases b <;> rfl
      exact List.eq_nil_of_length_eq_zero (by omega)
    subst hp
    exact Or.inl rfl
  | Null => exact absurd (List.prefix_nil.mp hpre) hne
  | RegExp pat opt =>
    simp only [wfValue, wfKeyStr, Bool.and_eq_true, List.all_eq_true,
      decide_eq_true_eq] at hwf
    obtain ⟨⟨hpu, hpn⟩, ⟨hou, hon⟩⟩ := hwf
    have hshape : payload (Value.RegExp pat opt) = pat ++ 0 :: (opt ++ 0 :: []) := by
      show ((pat ++ [0]) ++ (opt ++ [0])) = _
      simp [List.append_assoc]
    rw [hshape] at hpre hne
    refine Or.inl ?_
    rcases prefix_cstring_split pat _ p hpre with hppat | ⟨p1, rfl, hp1⟩
    · show (match read_cstring p with
        | Except.error e => Except.error e
        | Except.ok (p2, r1) =>
          match read_cstring r1 with
          | Except.error e => Except.error e
          | Except.ok (o2, r2) => (Except.ok (.RegExp p2 o2, r2) : DRes Value)) =
          .error .ioError
      rw [read_cstring_noTerm p (fun c hc => hpn c (hppat.subset hc))]
    · have hne1 : p1 ≠ opt ++ 0 :: [] := by
        intro h1
        exact hne (by rw [h1])
      show (match read_cstring (pat ++ 0 :: p1) with
        | Except.error e => Except.error e
        | Except.ok (p2, r1) =>
          match read_cstring r1 with
          | Except.error e => Except.error e
          | Except.ok (o2, r2) => (Except.ok (.RegExp p2 o2, r2) : DRes Value)) =
          .error .ioError
      rw [read_cstring_append pat _ hpn hpu]
      show (match read_cstring p1 with
        | Except.error e => Except.error e
        | Except.ok (o2, r2) => (Except.ok (.RegExp pat o2, r2) : DRes Value)) =
        .error .ioError
      rcases prefix_cstring_split opt _ p1 hp1 with hpopt | ⟨p2, rfl, hp2⟩
      · rw [read_cstring_noTerm p1 (fun c hc => hon c (hpopt.subset hc))]
      · rw [List.prefix_nil] at hp2
        subst hp2
        exact absurd rfl hne1
  | JavaScriptCode code =>
    simp only [wfValue, Bool.and_eq_true, decide_eq_true_eq] at hwf
    refine Or.inl ?_
    show (match read_string p with
      | Except.error e => Except.error e
      | Except.ok (s2, r2) => (Except.ok (.JavaScriptCode s2, r2) : DRes Value)) =
      .error .ioError
    rw [read_string_trunc code p hwf.2 hpre hne]
  | JavaScriptCodeWithScope code scope =>
    simp only [wfValue, Bool.and_eq_true, decide_eq_true_eq] at hwf
    obtain ⟨⟨hcu, hcl⟩, hsc⟩ := hwf
    have hpay : payload (Value.JavaScriptCodeWithScope code scope) =
        natToLE 4 (List.length (write_string code ++
          (natToLE 4 (4 + (encElems scope).length + 1) ++ encElems scope ++ [0])) + 4) ++
          (write_string code ++
            (natToLE 4 (4 + (encElems scope).length + 1) ++ (encElems scope ++ [0]))) := by
      rw [show payload (Value.JavaScriptCodeWithScope code scope) =
          natToLE 4 (List.length (write_string code ++
            (natToLE 4 (4 + (encElems scope).length + 1) ++ encElems scope ++ [0])) + 4) ++
            (write_string code ++
              (natToLE 4 (4 + (encElems scope).length + 1) ++ encElems scope ++ [0]))
          from rfl]
      simp [List.append_assoc]
    rw [hpay] at hpre hne
    refine Or.inl ?_
    rcases prefix_split _ _ p hpre with ⟨hp4, hp4ne⟩ | ⟨p1, rfl, hp1⟩
    · have hlt : p.length < 4 := by
        have hl := proper_prefix_length_lt p _ hp4 hp4ne
        simpa [natToLE_length] using hl
      show (match readI32 p with
        | Except.error e => Except.error e
        | Except.ok (_, r1) =>
          match read_string r1 with
          | Except.error e => Except.error e
          | Except.ok (c2, r2) =>
            match readI32 r2 with
            | Except.error e => Except.error e
            | Except.ok (_, r3) =>
              match (mkDec m).docLoop [] r3 with
              | Except.error e => Except.error e
              | Except.ok (sc2, r4) =>
                (Except.ok (.JavaScriptCodeWithScope c2 sc2, r4) : DRes Value)) =
          .error .ioError
      rw [readI32_short p hlt]
    · cases m with
      | zero => exact absurd hm (by omega)
      | succ m' =>
        show (match readI32 (natToLE 4 (List.length (write_string code ++
            (natToLE 4 (4 + (encElems scope).length + 1) ++ encElems scope ++ [0])) + 4) ++
            p1) with
          | Except.error e => Except.error e
          | Except.ok (_, r1) =>
            match read_string r1 with
            | Except.error e => Except.error e
            | Except.ok (c2, r2) =>
              match readI32 r2 with
              | Except.error e => Except.error e
              | Except.ok (_, r3) =>
                match docLoopF (mkDec m') [] r3 with
                | Except.error e => Except.error e
                | Except.ok (sc2, r4) =>
                  (Except.ok (.JavaScriptCodeWithScope c2 sc2, r4) : DRes Value)) =
          .error .ioError
        rw [readI32_bytes _ _ (natToLE_length _ _)]
        show (match read_string p1 with
          | Except.error e => Except.error e
          | Except.ok (c2, r2) =>
            match readI32 r2 with
            | Except.error e => Except.error e
            | Except.ok (_, r3) =>
              match docLoopF (mkDec m') [] r3 with
              | Except.error e => Except.error e
              | Except.ok (sc2, r4) =>
                (Except.ok (.JavaScriptCodeWithScope c2 sc2, r4) : DRes Value)) =
          .error .ioError
        rcases prefix_split (write_string code) _ p1 hp1 with ⟨hpw, hpwne⟩ | ⟨p2, rfl, hp2⟩
        · rw [read_string_trunc code p1 hcl hpw hpwne]
        · rw [read_string_write_string code p2 hcu hcl]
          show (match readI32 p2 with
            | Except.error e => Except.error e
            | Except.ok (_, r3) =>
              match docLoopF (mkDec m') [] r3 with
              | Except.error e => Except.error e
              | Except.ok (sc2, r4) =>
                (Except.ok (.JavaScriptCodeWithScope code sc2, r4) : DRes Value)) =
            .error .ioError
          rcases prefix_split (natToLE 4 (4 + (encElems scope).length + 1)) _ p2 hp2 with
            ⟨hp24, hp24ne⟩ | ⟨p3, rfl, hp3⟩
          · have hlt : p2.length < 4 := by
              have hl := proper_prefix_length_lt p2 _ hp24 hp24ne
              simpa [natToLE_length] using hl
            rw [readI32_short p2 hlt]
          · rw [readI32_bytes _ _ (natToLE_length _ _)]
            show (match docLoopF (mkDec m') [] p3 with
              | Except.error e => Except.error e
              | Except.ok (sc2, r4) =>
                (Except.ok (.JavaScriptCodeWithScope code sc2, r4) : DRes Value)) =
              .error .ioError
            have hne3 : p3 ≠ encElems scope ++ [0] := by
              intro h3
              exact hne (by rw [h3])
            have hmp : p3.length < m' := by
              have hL : (natToLE 4 (List.length (write_string code ++
                  (natToLE 4 (4 + (encElems scope).length + 1) ++ encElems scope ++ [0]))
                    + 4) ++
                  (write_string code ++
                    (natToLE 4 (4 + (encElems scope).length + 1) ++ p3))).length =
                  code.length + p3.length + 13 := by
                simp [write_string, natToLE_length]
                omega
              omega
            have RT : ∀ (k : Str) (w : Value), (k, w) ∈ scope → ∀ (m2 : Nat) (r2 : Bytes),
                wfValue w = true → (payload w).length ≤ m2 →
                bsonF (mkDec m2) (element_tag w) (payload w ++ r2) = .ok (w, r2) :=
              fun _ w _ m2 r2 hw hm2 => rt_bson_aux (sizeOf w) w le_rfl hw m2 r2 hm2
            have TR : ∀ (k : Str) (w : Value), (k, w) ∈ scope → ∀ (m2 : Nat) (p2 : Bytes),
                wfValue w = true → p2 <+: payload w → p2 ≠ payload w → p2.length < m2 →
                bsonF (mkDec m2) (element_tag w) p2 = .error .ioError ∨
                ∃ w2, bsonF (mkDec m2) (element_tag w) p2 = .ok (w2, []) := by
              intro k w hmem m2 p2 hw hp2x hp2ne hm2
              have hs1 : sizeOf w < sizeOf scope := sizeOf_mem_doc k w scope hmem
              have hs2 : sizeOf scope <
                  sizeOf (Value.JavaScriptCodeWithScope code scope) := by
                simp
              exact IH (sizeOf w) (by omega) w le_rfl hw m2 p2 hp2x hp2ne hm2
            rw [tr_docLoop_of scope RT TR m' [] p3 hsc hp3 hne3 hmp]
  | Int32 v =>
    have hlt : p.length < 4 := by
      have hl := proper_prefix_length_lt p _ hpre hne
      simpa [i32le, natToLE_length] using hl
    refine Or.inl ?_
    show (match readI32 p with
      | Except.error e => Except.error e
      | Except.ok (v2, r2) => (Except.ok (.Int32 v2, r2) : DRes Value)) = .error .ioError
    rw [readI32_short p hlt]
  | Int64 v =>
    have hlt : p.length < 8 := by
      have hl := proper_prefix_length_lt p _ hpre hne
      simpa [i64le, natToLE_length] using hl
    refine Or.inl ?_
    show (match readI64 p with
      | Except.error e => Except.error e
      | Except.ok (v2, r2) => (Except.ok (.Int64 v2, r2) : DRes Value)) = .error .ioError
    rw [readI64_short p hlt]
  | TimeStamp v =>
    have hlt : p.length < 8 := by
      have hl := proper_prefix_length_lt p _ hpre hne
      simpa [i64le, natToLE_length] using hl
    refine Or.inl ?_
    show (match readU64 p with
      | Except.error e => Except.error e
      | Except.ok (u, r2) => (Except.ok (.TimeStamp (i64OfU64 u), r2) : DRes Value)) =
      .error .ioError
    rw [readU64_short p hlt]
  | Binary subtype data =>
    simp only [wfValue, Bool.and_eq_true, List.all_eq_true, decide_eq_true_eq] at hwf
    obtain ⟨⟨hsub, hdata⟩, hblen⟩ := hwf
    have hshape : payload (Value.Binary subtype data) =
        natToLE 4 data.length ++ (subtype :: data) := rfl
    rw [hshape] at hpre hne
    rcases prefix_split _ _ p hpre with ⟨hp4, hp4ne⟩ | ⟨p1, rfl, hp1⟩
    · have hlt : p.length < 4 := by
        have hl := proper_prefix_length_lt p _ hp4 hp4ne
        simpa [natToLE_length] using hl
      refine Or.inl ?_
      show (match readI32 p with
        | Except.error e => Except.error e
        | Except.ok (len, r1) =>
          match readU8 r1 with
          | Except.error e => Except.error e
          | Except.ok (st, r2) =>
            match takeToEnd (u64OfI32 len) r2 with
            | Except.error e => Except.error e
            | Except.ok (dat, r3) => (Except.ok (.Binary st dat, r3) : DRes Value)) =
          .error .ioError
      rw [readI32_short p hlt]
    · cases p1 with
      | nil =>
        refine Or.inl ?_
        show (match readI32 (natToLE 4 data.length ++ ([] : Bytes)) with
          | Except.error e => Except.error e
          | Except.ok (len, r1) =>
            match readU8 r1 with
            | Except.error e => Except.error e
            | Except.ok (st, r2) =>
              match takeToEnd (u64OfI32 len) r2 with
              | Except.error e => Except.error e
              | Except.ok (dat, r3) => (Except.ok (.Binary st dat, r3) : DRes Value)) =
            .error .ioError
        rw [readI32_natToLE_small data.length _ (by omega)]
        rfl
      | cons c p2 =>
        have hc : c = subtype := (List.cons_prefix_cons.mp hp1).1
        have hp2 : p2 <+: data := (List.cons_prefix_cons.mp hp1).2
        subst hc
        refine Or.inr ⟨.Binary c (p2.take data.length), ?_⟩
        show (match readI32 (natToLE 4 data.length ++ (c :: p2)) with
          | Except.error e => Except.error e
          | Except.ok (len, r1) =>
            match readU8 r1 with
            | Except.error e => Except.error e
            | Except.ok (st, r2) =>
              match takeToEnd (u64OfI32 len) r2 with
              | Except.error e => Except.error e
              | Except.ok (dat, r3) => (Except.ok (.Binary st dat, r3) : DRes Value)) =
            .ok (.Binary c (p2.take data.length), [])
        rw [readI32_natToLE_small data.length _ (by omega)]
        show (match takeToEnd (u64OfI32 (data.length : Int)) p2 with
          | Except.error e => Except.error e
          | Except.ok (dat, r3) => (Except.ok (.Binary c dat, r3) : DRes Value)) =
          .ok (.Binary c (p2.take data.length), [])
        have hu : u64OfI32 ((data.length : Nat) : Int) = data.length := by
          rw [u64OfI32, if_pos (by omega)]
          omega
        rw [hu]
        show (Except.ok (.Binary c (p2.take data.length), p2.drop data.length) :
          DRes Value) = .ok (.Binary c (p2.take data.length), [])
        rw [List.drop_eq_nil_iff.mpr hp2.length_le]
  | ObjectId id =>
    simp only [wfValue, Bool.and_eq_true, List.all_eq_true, decide_eq_true_eq] at hwf
    obtain ⟨hid12, hidb⟩ := hwf
    have hlt : p.length < 12 := by
      have hl := proper_prefix_length_lt p _ hpre hne
      have hplen : (payload (Value.ObjectId id)).length = id.length := rfl
      omega
    refine Or.inl ?_
    show (match readExact 12 p with
      | Except.error e => Except.error e
      | Except.ok (i2, r2) => (Except.ok (.ObjectId i2, r2) : DRes Value)) = .error .ioError
    rw [readExact_short 12 p hlt]
  | UTCDatetime dt =>
    have hlt : p.length < 8 := by
      have hl := proper_prefix_length_lt p _ hpre hne
      simpa [i64le, natToLE_length] using hl
    refine Or.inl ?_
    show (match readI64 p with
      | Except.error e => Except.error e
      | Except.ok (time, r2) =>
        match timestampOpt (time.tdiv 1000)
            ((if time.tmod 1000 < 0 then 1000 - time.tmod 1000 else time.tmod 1000).toNat *
              1000000) with
        | none => Except.error (DecodeError.invalidTimestamp time)
        | some t => (Except.ok (.UTCDatetime t, r2) : DRes Value)) = .error .ioError
    rw [readI64_short p hlt]
  | Symbol s =>
    simp only [wfValue, Bool.and_eq_true, decide_eq_true_eq] at hwf
    refine Or.inl ?_
    show (match read_string p with
      | Except.error e => Except.error e
      | Except.ok (s2, r2) => (Except.ok (.Symbol s2, r2) : DRes Value)) = .error .ioError
    rw [read_string_trunc s p hwf.2 hpre hne]

/-- C4: decoding is all-or-nothing per document: on every truncation of a
well-formed document's encoding — a proper prefix cut at any point,
including inside a string, Binary, or nested document payload —
`decode_document` returns the I/O-failure error (`IoError`, the embedding's
`ioError`) and never a partial document. -/
theorem c4_truncated_stream_io_error (d : Document) (p : Bytes) (h : wfDoc d = true)
    (hpre : p <+: encode_document d) (hne : p ≠ encode_document d) :
    decode_document p = .error .ioError := by
  have hshape : encode_document d =
      natToLE 4 (4 + (encElems d).length + 1) ++ (encElems d ++ [0]) := by
    show (natToLE 4 (4 + (encElems d).length + 1) ++ encElems d ++ [0]) = _
    simp [List.append_assoc]
  rw [hshape] at hpre hne
  rw [decode_document]
  rcases prefix_split _ _ p hpre with ⟨hp4, hp4ne⟩ | ⟨p1, rfl, hp1⟩
  · have hlt : p.length < 4 := by
      have hl := proper_prefix_length_lt p _ hp4 hp4ne
      simpa [natToLE_length] using hl
    rw [readI32_short p hlt]
  · have hne1 : p1 ≠ encElems d ++ [0] := by
      intro h1
      exact hne (by rw [h1])
    rw [readI32_bytes _ _ (natToLE_length _ _)]
    show docLoopF
      (mkDec ((natToLE 4 (4 + (encElems d).length + 1) ++ p1).length + 1)) [] p1 =
      .error .ioError
    have RT : ∀ (k : Str) (w : Value), (k, w) ∈ d → ∀ (m2 : Nat) (r2 : Bytes),
        wfValue w = true → (payload w).length ≤ m2 →
        bsonF (mkDec m2) (element_tag w) (payload w ++ r2) = .ok (w, r2) :=
      fun _ w _ m2 r2 hw hm2 => rt_bson_aux (sizeOf w) w le_rfl hw m2 r2 hm2
    have TR : ∀ (k : Str) (w : Value), (k, w) ∈ d → ∀ (m2 : Nat) (p2 : Bytes),
        wfValue w = true → p2 <+: payload w → p2 ≠ payload w → p2.length < m2 →
        bsonF (mkDec m2) (element_tag w) p2 = .error .ioError ∨
        ∃ w2, bsonF (mkDec m2) (element_tag w) p2 = .ok (w2, []) :=
      fun _ w _ m2 p2 hw hp2 hp2ne hm2 =>
        tr_bson_aux (sizeOf w) w le_rfl hw m2 p2 hp2 hp2ne hm2
    exact tr_docLoop_of d RT TR _ [] p1 h hp1 hne1
      (by simp [natToLE_length]; omega)

/-- C4 witness: the encoding of `{"a": true}` cut one byte short (the
missing terminator) decodes to the I/O-failure error. -/
theorem c4_truncated_stream_io_error_witness :
    wfDoc [([97], Value.Boolean true)] = true ∧
    [9, 0, 0, 0, 8, 97, 0, 1] <+: encode_document [([97], Value.Boolean true)] ∧
    [9, 0, 0, 0, 8, 97, 0, 1] ≠ encode_document [([97], Value.Boolean true)] ∧
    decode_document [9, 0, 0, 0, 8, 97, 0, 1] = .error .ioError :=
  ⟨by decide, ⟨[0], rfl⟩, by decide,
    c4_truncated_stream_io_error [([97], Value.Boolean true)]
      [9, 0, 0, 0, 8, 97, 0, 1] (by decide) ⟨[0], rfl⟩ (by decide)⟩

end Bsonrs
